import Mathlib

/-!
Verification of the Draft bulk file-transfer engine's core components
against their specification, via a shallow embedding of the C++ sources.

Components embedded here:
* wire protocol constants and the Receiver's header-validation step
  (src/include/draft/util/Protocol.hh, src/src/util/Receiver.cc);
* the Sender's frame serialization (src/src/util/Sender.cc) with a
  byte-level frame parser;
* the Hasher's per-descriptor hashing (src/src/util/Hasher.cc);
* the bounded wait queue (src/include/draft/util/WaitQueue.hh);
* the journal file format, cursor and iterator
  (src/src/util/Journal.cc, src/include/draft/util/Journal.hh);
* the buffer pool free list (src/src/util/BufferPool.cc);
* the journal diff operation (src/src/util/JournalOperations.cc).

Machine integers are modelled as `Nat` with explicit bounds or wrap-around
(`% 2^64`) where the width matters.  Byte strings are `List Nat` with each
element below 256.  External libraries (xxhash's XXH3, nlohmann's CBOR
codec) are modelled as parameters of the definitions that call them.
-/

namespace Draft

/-! ## Little-endian byte serialization helpers -/

/-- Serialize the low `w` bytes of `v`, least significant byte first.
Corresponds to storing an unsigned integer field of width `w` into the raw
on-wire / on-disk representation on a little-endian machine. -/
def leBytes : Nat → Nat → List Nat
  | 0, _ => []
  | w + 1, v => v % 256 :: leBytes w (v / 256)

/-- Read a little-endian unsigned integer from a byte list. -/
def leVal : List Nat → Nat
  | [] => 0
  | b :: bs => b + 256 * leVal bs

/-! ## Wire protocol (src/include/draft/util/Protocol.hh)

`wire::ChunkHeader` prefixes every chunk on a data channel.  The struct is
padded to `BlockSize` (4096) bytes; the meaningful fields are
`magic : u64`, `fileOffset : u64`, `payloadLength : u64`, `fileId : u16`,
`flags : u8` and three pad bytes. -/

namespace ChunkHeader

def BlockSize : Nat := 4096

def Magic : Nat := 0x55aaaa55da7a0000

def MagicVersionMask : Nat := 0xffff

/-- `~MagicVersionMask` on `uint64_t`. -/
def MagicMask : Nat := 0xffffffffffff0000

end ChunkHeader

/-- The low-16-bit-masked view of a chunk magic, i.e. `magic & ~0xFFFF` as
computed on `uint64_t`. -/
def maskedMagic (m : Nat) : Nat := m &&& ChunkHeader.MagicMask

/-- On-wire bytes of a `wire::ChunkHeader` value: the value is
zero-initialized and the caller assigns `magic`, `fileOffset`,
`payloadLength` and `fileId`; `flags`, the three pad bytes and the
4064-byte alignment padding stay zero.  Fields are stored little-endian at
offsets 0, 8, 16, 24, with `flags` at 26. -/
def ChunkHeader.serialize (magic fileOffset payloadLength fileId flags : Nat) : List Nat :=
  leBytes 8 magic ++ leBytes 8 fileOffset ++ leBytes 8 payloadLength ++
    leBytes 2 fileId ++ leBytes 1 flags ++ List.replicate 3 0 ++
    List.replicate 2 0 ++ List.replicate (ChunkHeader.BlockSize - 32) 0

/-! ## Receiver header validation (src/src/util/Receiver.cc, readHeader)

Once `readHeader` has gathered a complete header, it compares
`header_.magic` with `wire::ChunkHeader::Magic`.  On mismatch it resets
`fd_` (closing the data socket) and clears `offset_`, so the state machine
returns to `AwaitConnect`; on match it returns 1 and `waitData` acquires a
payload buffer and proceeds to read the payload. -/

structure RecvHeaderStep where
  /-- true when `readHeader` returned 1 and the payload read begins. -/
  accepted : Bool
  /-- true when the peer socket was closed (`fd_` reset). -/
  closedConnection : Bool
  deriving Repr, DecidableEq

/-- The decision `Receiver::readHeader` takes on a fully gathered header
with magic field `m`. -/
def Receiver.readHeaderCheck (m : Nat) : RecvHeaderStep :=
  if m = ChunkHeader.Magic then
    { accepted := true, closedConnection := false }
  else
    { accepted := false, closedConnection := true }

/-! ## Pipeline data (src/include/draft/util/Util.hh)

`BDesc` is the in-process pipeline unit.  `buf` is a
`std::shared_ptr<BufferPool::Buffer>` (possibly null, modelled as
`Option`); a buffer's payload bytes are `bytes` and `size()` is their
count.  `fileId` is C++ `unsigned`, `offset` and `len` are `size_t`. -/

structure Buffer where
  bytes : List Nat
  deriving Repr, DecidableEq

structure BDesc where
  buf : Option Buffer
  fileId : Nat
  offset : Nat
  len : Nat
  deriving Repr, DecidableEq

/-- The bytes reachable from `desc.buf->data()` (empty for a null buffer
pointer). -/
def BDesc.bufBytes (d : BDesc) : List Nat :=
  match d.buf with
  | none => []
  | some b => b.bytes

/-! ## Sender (src/src/util/Sender.cc)

`Sender::write` builds a zero-initialized `wire::ChunkHeader`, assigns
`magic = ChunkHeader::Magic`, `fileOffset = desc.offset`,
`payloadLength = desc.len`, `fileId = desc.fileId` (a `u16 = unsigned`
assignment, truncating mod 2^16), and writes the 4096-byte header followed
by `desc.len` bytes of `desc.buf->data()` with a vectored write
(`writeChunk` loops until everything is written). -/

def Sender.writeBytes (d : BDesc) : List Nat :=
  ChunkHeader.serialize ChunkHeader.Magic d.offset d.len d.fileId 0 ++
    d.bufBytes.take d.len

/-- The byte stream a Sender produces for the descriptor sequence it
drains from its queue. -/
def Sender.stream (ds : List BDesc) : List Nat :=
  ds.flatMap Sender.writeBytes

/-- If a journal is attached, `Sender::write` hashes
`XXH3_64bits(desc.buf->data(), desc.len)` — the first `desc.len` buffer
bytes. -/
def Sender.hashedBytes (d : BDesc) : List Nat :=
  d.bufBytes.take d.len

/-- A parsed `(ChunkHeader, payload)` frame. -/
structure Frame where
  magic : Nat
  fileOffset : Nat
  payloadLength : Nat
  fileId : Nat
  flags : Nat
  payload : List Nat
  deriving Repr, DecidableEq

/-- Parse a byte stream as a sequence of `(ChunkHeader, payload)` frames:
each frame is a 4096-byte header (fields read little-endian at their
struct offsets) immediately followed by exactly `payloadLength` payload
bytes. -/
def parseFrames (bs : List Nat) : Option (List Frame) :=
  if bs = [] then some []
  else if hlen : ChunkHeader.BlockSize ≤ bs.length then
    let hdr := bs.take ChunkHeader.BlockSize
    let payloadLength := leVal ((hdr.drop 16).take 8)
    let rest := bs.drop ChunkHeader.BlockSize
    if payloadLength ≤ rest.length then
      match parseFrames (rest.drop payloadLength) with
      | none => none
      | some fs =>
          some ({ magic := leVal (hdr.take 8),
                  fileOffset := leVal ((hdr.drop 8).take 8),
                  payloadLength := payloadLength,
                  fileId := leVal ((hdr.drop 24).take 2),
                  flags := leVal ((hdr.drop 26).take 1),
                  payload := rest.take payloadLength } :: fs)
    else none
  else none
termination_by bs.length
decreasing_by
  simp only [List.length_drop]
  simp only [ChunkHeader.BlockSize] at hlen ⊢
  omega

/-- The frame a Sender's output stream carries for descriptor `d`:
`fileId` is the `u16 = unsigned` narrowing of the descriptor's id. -/
def Sender.frameOf (d : BDesc) : Frame :=
  { magic := ChunkHeader.Magic,
    fileOffset := d.offset,
    payloadLength := d.len,
    fileId := d.fileId % 65536,
    flags := 0,
    payload := d.bufBytes.take d.len }

/-! ## Journal hash records (src/include/draft/util/Journal.hh)

`Journal::HashRecord` is the packed 32-byte entry
`{hash : u64, offset : u64, size : u64, fileId : u16, pad : u8[6]}`. -/

structure HashRecord where
  hash : Nat
  offset : Nat
  size : Nat
  fileId : Nat
  deriving Repr, DecidableEq

/-- The 32 bytes of a packed `HashRecord` (little-endian fields, 6 zero
pad bytes). -/
def HashRecord.serialize (r : HashRecord) : List Nat :=
  leBytes 8 r.hash ++ leBytes 8 r.offset ++ leBytes 8 r.size ++
    leBytes 2 r.fileId ++ List.replicate 6 0

/-- Read a packed `HashRecord` back from its 32 bytes. -/
def HashRecord.deserialize (bs : List Nat) : HashRecord :=
  { hash := leVal (bs.take 8),
    offset := leVal ((bs.drop 8).take 8),
    size := leVal ((bs.drop 16).take 8),
    fileId := leVal ((bs.drop 24).take 2) }

/-! ## Hasher (src/src/util/Hasher.cc)

`Hasher::runOnce` drains the hash queue; descriptors whose `buf` pointer
is null are skipped (`continue`).  For the rest it computes
`digest = hash(*desc)` where `Hasher::hash` returns
`XXH3_64bits(desc.buf->data(), desc.buf->size())` — the whole physical
buffer, not the descriptor's logical `len` — and calls
`hashLog_->writeHash(desc->fileId, desc->offset, desc->len, digest)`
(`fileId` narrows `unsigned → uint16_t`).  The external XXH3 function is
a parameter `xxh3`. -/

/-- The bytes `Hasher::hash` feeds to `XXH3_64bits`: the full buffer
(`desc.buf->data()`, `desc.buf->size()`). -/
def Hasher.hashedBytes (d : BDesc) : List Nat :=
  match d.buf with
  | none => []
  | some b => b.bytes

def Hasher.hash (xxh3 : List Nat → Nat) (d : BDesc) : Nat :=
  match d.buf with
  | none => 0
  | some b => xxh3 b.bytes

/-- The journal record `Hasher::runOnce` emits for one dequeued
descriptor (`none` when the descriptor is skipped for lack of a
buffer). -/
def Hasher.runOnceRecord (xxh3 : List Nat → Nat) (d : BDesc) : Option HashRecord :=
  match d.buf with
  | none => none
  | some _ =>
      some { hash := Hasher.hash xxh3 d,
             offset := d.offset,
             size := d.len,
             fileId := d.fileId % 65536 }

/-- What the specification says the hasher should hash: exactly the
descriptor's `len` logical bytes of the payload. -/
def Hasher.specHashedBytes (d : BDesc) : List Nat :=
  d.bufBytes.take d.len

/-! ## Bounded wait queue (src/include/draft/util/WaitQueue.hh)

The queue state is the deque contents, the size limit and the `done_`
cancel flag.  Blocking and lock acquisition are temporal; the model
captures each completed call as a state transformation, with a boolean
input for the deadline variants recording whether the internal
`try_lock_until` / `wait_until` timed out. -/

inductive WQStatus
  | OK
  | TimedOut
  | Full
  | Error
  deriving Repr, DecidableEq

structure WaitQueue (V : Type) where
  q : List V
  sizeLimit : Nat
  done : Bool

/-- The `op` lambda of `doPut`, run with the lock held: refuse when the
element count has reached the size limit, otherwise push back. -/
def WaitQueue.doPutOp {V : Type} (s : WaitQueue V) (v : V) : WQStatus × WaitQueue V :=
  if s.sizeLimit ≤ s.q.length then (.Full, s)
  else (.OK, { s with q := s.q ++ [v] })

/-- `WaitQueue::doPut`.  `lockTimedOut` records whether
`doWithLock`'s `try_lock_until` expired (always `false` for the
deadline-less `put`, whose `lk.lock()` cannot time out).  On lock timeout
the op never runs and the status is `TimedOut`; otherwise the status is
the op's (`Full` leaves the queue unchanged, `OK` has enqueued). -/
def WaitQueue.doPut {V : Type} (s : WaitQueue V) (v : V) (lockTimedOut : Bool) :
    WQStatus × WaitQueue V :=
  if lockTimedOut then (.TimedOut, s) else s.doPutOp v

/-- `put(value)`: returns `doPut(move(t), nullptr) == Status::OK`. -/
def WaitQueue.put {V : Type} (s : WaitQueue V) (v : V) : Bool × WaitQueue V :=
  let r := s.doPut v false
  (r.1 = WQStatus.OK, r.2)

/-- `put(value, deadline)`: returns `doPut(move(t), &deadline) == Status::OK`. -/
def WaitQueue.putDeadline {V : Type} (s : WaitQueue V) (v : V) (lockTimedOut : Bool) :
    Bool × WaitQueue V :=
  let r := s.doPut v lockTimedOut
  (r.1 = WQStatus.OK, r.2)

/-- The `op` lambda of `doGet`: pop the front element. -/
def WaitQueue.doGetOp {V : Type} (s : WaitQueue V) : Option V × WaitQueue V :=
  match s.q with
  | [] => (none, s)
  | x :: xs => (some x, { s with q := xs })

/-- `get()` via `doWithCondition` with no deadline: waits until
`done_ || !q_.empty()`; once the wait finishes, a set `done_` flag makes
the call return empty without touching the queue, otherwise the front
element is popped.  (When `done_` is clear and the queue empty the real
call has not yet returned; this model gives the value of a completed
call.) -/
def WaitQueue.get {V : Type} (s : WaitQueue V) : Option V × WaitQueue V :=
  if s.done then (none, s) else s.doGetOp

/-- `get(deadline)`: as `get()`, except the lock or condition wait can
time out (`waitTimedOut`), returning empty with the queue untouched. -/
def WaitQueue.getDeadline {V : Type} (s : WaitQueue V) (waitTimedOut : Bool) :
    Option V × WaitQueue V :=
  if waitTimedOut then (none, s)
  else if s.done then (none, s) else s.doGetOp

/-- `tryGet()`: `try_lock` (assumed uncontended here), then the op runs
with no `done_` check: it pops and returns the front element.  On an
empty queue the lambda returns a default-constructed value, which
converts to an engaged optional. -/
def WaitQueue.tryGet {V : Type} [Inhabited V] (s : WaitQueue V) : Option V × WaitQueue V :=
  match s.q with
  | [] => (some default, s)
  | x :: xs => (some x, { s with q := xs })

/-- `cancel()`: sets `done_` and wakes all waiters; drains nothing. -/
def WaitQueue.cancel {V : Type} (s : WaitQueue V) : WaitQueue V :=
  { s with done := true }

/-! ## Journal file layout (src/src/util/Journal.cc)

A journal file is `FileHeader` (24 meaningful bytes inside a 64-byte
region), CBOR metadata, zero padding up to a 512-byte boundary, then
packed 32-byte hash records.  The CBOR codec (nlohmann) is modelled by an
encode parameter `enc` mapping the journal metadata (here: its `file_info`
list, the only part the claims touch) to its serialized bytes, and a
decode parameter `dec` for the read side. -/

def JournalHeaderOffset : Nat := 64

def JournalBlockSize : Nat := 512

/-- `(n + JournalBlockSize - 1) & ~(JournalBlockSize - 1)` on `size_t`
(equal to the division form below whenever `n + 511 < 2^64`, which the
theorems' size hypotheses guarantee). -/
def roundUpBlock (n : Nat) : Nat :=
  (n + (JournalBlockSize - 1)) / JournalBlockSize * JournalBlockSize

/-- ASCII `"DRAFTJF "`. -/
def journalMagicBytes : List Nat := [0x44, 0x52, 0x41, 0x46, 0x54, 0x4A, 0x46, 0x20]

/-- The raw 24-byte `FileHeader`: 8 magic bytes, `journalOffset : u64 LE`,
`cborSize : u64 LE`. -/
def fileHeaderBytes (journalOffset cborSize : Nat) : List Nat :=
  journalMagicBytes ++ leBytes 8 journalOffset ++ leBytes 8 cborSize

/-- `Journal::writeHeader`: a buffer of 64 zero bytes, the CBOR metadata
appended, the whole padded with zeros to the 512-byte alignment, and the
`FileHeader` written over the first 24 bytes with
`journalOffset = padded size` and `cborSize` the CBOR length. -/
def Journal.headerRegion {FI : Type} (enc : List FI → List Nat) (info : List FI) : List Nat :=
  let cbor := enc info
  let rawSize := JournalHeaderOffset + cbor.length
  let padded := roundUpBlock rawSize
  fileHeaderBytes padded cbor.length ++ List.replicate (JournalHeaderOffset - 24) 0 ++
    cbor ++ List.replicate (padded - rawSize) 0

/-- `Journal::writeHash`: appends the packed 32-byte record to the end of
the journal file (`pwritev2` with `RWF_APPEND`). -/
def Journal.writeHash (file : List Nat) (r : HashRecord) : List Nat :=
  file ++ r.serialize

/-- The journal file produced by creating a journal with `info` and
appending `records` in order via `writeHash`. -/
def Journal.fileBytes {FI : Type} (enc : List FI → List Nat) (info : List FI)
    (records : List HashRecord) : List Nat :=
  records.foldl Journal.writeHash (Journal.headerRegion enc info)

/-- `readFileHeader`: `journalOffset` is the u64 at byte 8. -/
def Journal.journalOffsetOf (file : List Nat) : Nat :=
  leVal ((file.drop 8).take 8)

/-- `readFileHeader`: `cborSize` is the u64 at byte 16. -/
def Journal.cborSizeOf (file : List Nat) : Nat :=
  leVal ((file.drop 16).take 8)

/-- `internal::journalRecordCount`: zero unless the file extends past the
hash offset, else the spare byte count divided by `sizeof(HashRecord)`
(= 32). -/
def journalRecordCount (fileLen hashOffset : Nat) : Nat :=
  if fileLen ≤ hashOffset then 0 else (fileLen - hashOffset) / 32

/-- `Journal::hashCount`. -/
def Journal.hashCount (file : List Nat) : Nat :=
  journalRecordCount file.length (Journal.journalOffsetOf file)

/-- `Journal::fileInfo` via `readJournalHeaderJson`: reads `cborSize`
bytes at offset 64 and CBOR-decodes the `file_info` entry. -/
def Journal.fileInfoOf {FI : Type} (dec : List Nat → Option (List FI))
    (file : List Nat) : Option (List FI) :=
  dec ((file.drop JournalHeaderOffset).take (Journal.cborSizeOf file))

/-- `Journal::checkFileHeader` run by the read-only constructor: the
`journalOffset` must be below `off_t` max (2^63 − 1), must not exceed the
file size, and the magic must be `"DRAFTJF "`. -/
def Journal.checkFileHeader (file : List Nat) : Bool :=
  decide (Journal.journalOffsetOf file < 2 ^ 63 - 1) &&
  decide (Journal.journalOffsetOf file ≤ file.length) &&
  (file.take 8 == journalMagicBytes)

/-! ## Cursor and iterator (src/src/util/Journal.cc, Journal.hh)

A cursor's position is a `size_t` record index with `~0` the invalid
sentinel.  `seek` re-reads the record count from the file on every call;
all `size_t` arithmetic wraps mod 2^64. -/

def USIZE : Nat := 2 ^ 64

/-- `~size_t{ }`. -/
def invalidPos : Nat := USIZE - 1

inductive Whence
  | Set
  | Current
  | End
  deriving Repr, DecidableEq

/-- `Cursor::seek` on a journal with `recordCount` records, transcribed
branch by branch.  `count` is the `off_t` argument; `countAbsSz` is its
absolute value cast to `size_t`. -/
def Cursor.seek (recordCount : Nat) (idx : Nat) (count : Int) (whence : Whence) : Nat :=
  if recordCount = 0 then idx
  else
    let countAbsSz := count.natAbs
    match whence with
    | .Set =>
        if count < 0 ∨ recordCount < countAbsSz then invalidPos else countAbsSz
    | .Current =>
        if count < 0 then
          if idx = invalidPos then (recordCount + USIZE - countAbsSz) % USIZE
          else if idx < countAbsSz then invalidPos
          else idx - countAbsSz
        else
          let newIdx := (idx + countAbsSz) % USIZE
          if newIdx < idx ∨ recordCount ≤ newIdx then invalidPos
          else if idx ≠ invalidPos then newIdx
          else idx
    | .End =>
        if 0 ≤ count ∨ recordCount < countAbsSz then invalidPos
        else recordCount - countAbsSz

/-- `Cursor::valid`: a fresh record count and `recordIdx_ <
recordCount`. -/
def Cursor.validAt (recordCount idx : Nat) : Bool :=
  decide (recordCount ≠ 0) && decide (idx < recordCount)

/-- `Cursor::hashRecord`: nothing when invalid, else the packed record
re-read at `hashOffset_ + recordIdx_ * sizeof(HashRecord)`. -/
def Cursor.hashRecordAt (file : List Nat) (idx : Nat) : Option HashRecord :=
  if Cursor.validAt (Journal.hashCount file) idx then
    some (HashRecord.deserialize
      ((file.drop (Journal.journalOffsetOf file + idx * 32)).take 32))
  else none

/-- `Journal::begin`: a fresh cursor (`recordIdx_ = ~0`) after
`seek(0, Set)`. -/
def Journal.beginPos (file : List Nat) : Nat :=
  Cursor.seek (Journal.hashCount file) invalidPos 0 .Set

/-- `Journal::end`: a fresh cursor after `seek(0, End)`. -/
def Journal.endPos (file : List Nat) : Nat :=
  Cursor.seek (Journal.hashCount file) invalidPos 0 .End

/-- `CursorIter::operator+=` / `operator+`: `cursor_.seek(offset)` with
the default `Current` whence. -/
def CursorIter.add (file : List Nat) (pos : Nat) (offset : Int) : Nat :=
  Cursor.seek (Journal.hashCount file) pos offset .Current

/-- `CursorIter::operator-=` / `operator-`: `cursor_.seek(-offset)`. -/
def CursorIter.sub (file : List Nat) (pos : Nat) (offset : Int) : Nat :=
  Cursor.seek (Journal.hashCount file) pos (-offset) .Current

/-- Forward iteration `for (it = pos; it != end(); ++it) *it`, collecting
the dereferenced records (`none` marks the out-of-range error throw). -/
def Journal.iterFwd (file : List Nat) (pos : Nat) : Nat → List (Option HashRecord)
  | 0 => []
  | fuel + 1 =>
      if pos = Journal.endPos file then []
      else Cursor.hashRecordAt file pos ::
        Journal.iterFwd file (CursorIter.add file pos 1) fuel

/-- Backward iteration from `pos`: `fuel` times `--it; *it`. -/
def Journal.iterBwd (file : List Nat) (pos : Nat) : Nat → List (Option HashRecord)
  | 0 => []
  | fuel + 1 =>
      let p := CursorIter.sub file pos 1
      Cursor.hashRecordAt file p :: Journal.iterBwd file p fuel

/-! ## Journal create constructor (src/src/util/Journal.cc)

`Journal::Journal(path, info)` opens with
`O_RDWR | O_CLOEXEC | O_CREAT | O_EXCL`: exclusive create.  When the path
already exists the open fails with `EEXIST`, the constructor throws
`std::system_error`, and nothing touches the existing file.  Otherwise the
header region is written.  The filesystem is a path → contents map. -/

def FileSystem : Type := List (String × List Nat)

/-- The create-mode constructor as a filesystem transformer: `.error` is
the thrown exception; the second component is the resulting filesystem. -/
def Journal.create {FI : Type} (enc : List FI → List Nat) (fs : FileSystem)
    (path : String) (info : List FI) : Except Unit Unit × FileSystem :=
  if (List.lookup path fs).isSome then (Except.error (), fs)
  else (Except.ok (), (path, Journal.headerRegion enc info) :: fs)

/-! ## Buffer pool (src/src/util/BufferPool.cc)

`FreeList` is an intrusive linked list over a vector of indices:
`list_[i]` is the next free index after `i`, `free_` the head, `End`
(`~size_t{0}`) the terminator.  `FreeList::get` returns `~0u` when empty.
`BufferPool::get` pops an index under the lock (blocking while none is
free), `BufferPool::put` — called from a `Buffer`'s destructor or
move-assignment — pushes it back. -/

namespace FreeList

/-- `~size_t{0}`. -/
def End : Nat := USIZE - 1

/-- `~0u` (unsigned int), the get-failure sentinel. -/
def GetFail : Nat := 2 ^ 32 - 1

end FreeList

structure FreeList where
  list : List Nat
  free : Nat
  deriving Repr, DecidableEq

/-- `FreeList::FreeList(size)`: `list_[i] = i + 1` with the last entry
`End`; `free_` keeps its zero initializer. -/
def FreeList.mkInit (size : Nat) : FreeList :=
  { list := ((List.range size).map (· + 1)).set (size - 1) FreeList.End,
    free := 0 }

/-- `FreeList::get`. -/
def FreeList.get (fl : FreeList) : Nat × FreeList :=
  if fl.free = FreeList.End then (FreeList.GetFail, fl)
  else (fl.free, { fl with free := fl.list.getD fl.free 0 })

/-- `FreeList::put`. -/
def FreeList.put (fl : FreeList) (idx : Nat) : FreeList :=
  { list := if idx < fl.list.length then fl.list.set idx fl.free else fl.list,
    free := idx }

/-- Pool state: the free list plus the multiset of indices currently
owned by live `Buffer` handles.  Moving a handle transfers ownership
without touching the pool, so only acquisition and the final drop of an
index appear as operations. -/
structure PoolState where
  freeList : FreeList
  held : List Nat
  deriving Repr, DecidableEq

inductive PoolOp
  /-- `BufferPool::get()`: acquire a buffer.  While nothing is free the
  caller blocks, so a completed trace records no state change. -/
  | get
  /-- The last live handle holding `idx` drops (destructor, or the
  overwritten target of a move assignment): `BufferPool::put(idx)`. -/
  | drop (idx : Nat)
  deriving Repr, DecidableEq

def BufferPool.init (count : Nat) : PoolState :=
  { freeList := FreeList.mkInit count, held := [] }

def BufferPool.step (st : PoolState) : PoolOp → PoolState
  | .get =>
      let r := st.freeList.get
      if r.1 = FreeList.GetFail then { st with freeList := r.2 }
      else { freeList := r.2, held := r.1 :: st.held }
  | .drop idx =>
      if idx ∈ st.held then
        { freeList := st.freeList.put idx, held := st.held.erase idx }
      else st

def BufferPool.run (count : Nat) (ops : List PoolOp) : PoolState :=
  ops.foldl BufferPool.step (BufferPool.init count)

/-- The chain of indices reachable from `free` by following `list_`
links until `End`: the contents of the free list. -/
inductive FreeChain (list : List Nat) : Nat → List Nat → Prop
  | nil : FreeChain list FreeList.End []
  | cons {i : Nat} {ch : List Nat} (hne : i ≠ FreeList.End) (hlt : i < list.length)
      (h : FreeChain list (list.getD i 0) ch) : FreeChain list i (i :: ch)

/-! ## diffJournals (src/src/util/JournalOperations.cc)

A streaming join of the two journals' record sequences keyed by
`(fileId, offset)` through a `std::map` (kept in key order here, as a
sorted association list).  The loop walks both sequences in lockstep; the
`diff` lambda looks the record's key up, emits a `Difference` on a hash
mismatch and erases the entry, or inserts the record; leftovers are
emitted after the walk in map (key) order. -/

structure Difference where
  offset : Nat
  size : Nat
  hashA : Nat
  hashB : Nat
  fileId : Nat
  deriving Repr, DecidableEq

inductive Which
  | A
  | B
  deriving Repr, DecidableEq

structure DKey where
  file : Nat
  offset : Nat
  deriving Repr, DecidableEq

structure DVal where
  size : Nat
  hash : Nat
  which : Which
  deriving Repr, DecidableEq

def HashRecord.dkey (r : HashRecord) : DKey :=
  { file := r.fileId, offset := r.offset }

/-- `operator<=>` on `Key`: lexicographic on `(file, offset)`. -/
def DKey.lt (a b : DKey) : Bool :=
  a.file < b.file || (a.file == b.file && a.offset < b.offset)

def DMap : Type := List (DKey × DVal)

def DMap.find : DMap → DKey → Option DVal
  | [], _ => none
  | (k', v) :: m, k => if k = k' then some v else DMap.find m k

/-- `std::map` insertion (keys kept sorted; the caller only inserts keys
that are absent). -/
def DMap.insert (k : DKey) (v : DVal) : DMap → DMap
  | [] => [(k, v)]
  | (k', v') :: m =>
      if DKey.lt k k' then (k, v) :: (k', v') :: m
      else (k', v') :: DMap.insert k v m

def DMap.erase (k : DKey) : DMap → DMap
  | [] => []
  | (k', v') :: m => if k = k' then m else (k', v') :: DMap.erase k m

def DMap.keys (m : DMap) : List DKey := m.map Prod.fst

/-- The `Difference` pushed on a hash mismatch: `offset`/`size`/`fileId`
from the currently processed record, `hashA`/`hashB` from whichever side
contributed which hash. -/
def mkDiff (r : HashRecord) (w : Which) (v : DVal) : Difference :=
  { offset := r.offset,
    size := r.size,
    hashA := if w = Which.A then r.hash else v.hash,
    hashB := if w = Which.B then r.hash else v.hash,
    fileId := r.fileId }

/-- The `diff` lambda applied to one record tagged with its side. -/
def diffStep (w : Which) (r : HashRecord) (st : DMap × List Difference) :
    DMap × List Difference :=
  match st.1.find r.dkey with
  | some v =>
      (st.1.erase r.dkey,
        if r.hash = v.hash then st.2 else st.2 ++ [mkDiff r w v])
  | none => (st.1.insert r.dkey ⟨r.size, r.hash, w⟩, st.2)

/-- The lockstep walk: per iteration one record of the first sequence
(tagged `w1`) then one of the second (tagged `w2`), while either remains. -/
def diffLoop (w1 w2 : Which) :
    List HashRecord → List HashRecord → DMap × List Difference → DMap × List Difference
  | [], [], st => st
  | a :: as, [], st => diffLoop w1 w2 as [] (diffStep w1 a st)
  | [], b :: bs, st => diffLoop w1 w2 [] bs (diffStep w2 b st)
  | a :: as, b :: bs, st => diffLoop w1 w2 as bs (diffStep w2 b (diffStep w1 a st))

/-- A leftover map entry emitted after the walk: one-sided difference
with the absent side's hash zero. -/
def leftoverDiff (e : DKey × DVal) : Difference :=
  { offset := e.1.offset,
    size := e.2.size,
    hashA := if e.2.which = Which.A then e.2.hash else 0,
    hashB := if e.2.which = Which.B then e.2.hash else 0,
    fileId := e.1.file }

/-- `diffJournals` on the two journals' record sequences. -/
def diffJournals (ra rb : List HashRecord) : List Difference :=
  let st := diffLoop Which.A Which.B ra rb ([], [])
  st.2 ++ st.1.map leftoverDiff

/-- Swap the `hashA`/`hashB` fields of a `Difference`. -/
def Difference.swap (d : Difference) : Difference :=
  { d with hashA := d.hashB, hashB := d.hashA }

/-- Exchange the roles of journal A and journal B. -/
def Which.flip : Which → Which
  | .A => .B
  | .B => .A

def DVal.flip (v : DVal) : DVal :=
  { v with which := v.which.flip }

def DMap.flip (m : DMap) : DMap :=
  m.map (fun e => (e.1, e.2.flip))

/-- The map component of one `diff` application. -/
def diffStepMap (w : Which) (r : HashRecord) (m : DMap) : DMap :=
  (diffStep w r (m, [])).1

/-- The differences one `diff` application emits. -/
def diffStepEmit (w : Which) (r : HashRecord) (m : DMap) : List Difference :=
  (diffStep w r (m, [])).2

/-- The map left after the lockstep walk. -/
def diffLoopMap (w1 w2 : Which) (xs ys : List HashRecord) (m : DMap) : DMap :=
  (diffLoop w1 w2 xs ys (m, [])).1

/-- The differences the lockstep walk emits. -/
def diffLoopEmit (w1 w2 : Which) (xs ys : List HashRecord) (m : DMap) :
    List Difference :=
  (diffLoop w1 w2 xs ys (m, [])).2

/-- The buffer-pool conservation invariant: the free list's reachable
chain and the held indices together cover each of `0 .. count-1` exactly
once. -/
def PoolInv (count : Nat) (st : PoolState) : Prop :=
  st.freeList.list.length = count ∧
  ∃ ch, FreeChain st.freeList.list st.freeList.free ch ∧
    (ch ++ st.held).Perm (List.range count)

/-! # Theorems -/

/-! ## Serialization helper lemmas -/

theorem leBytes_length (w v : Nat) : (leBytes w v).length = w := by
  induction w generalizing v with
  | zero => rfl
  | succ w ih => simp [leBytes, ih]

theorem leVal_leBytes (w v : Nat) : leVal (leBytes w v) = v % 2 ^ (8 * w) := by
  induction w generalizing v with
  | zero => simp [leBytes, leVal, Nat.mod_one]
  | succ w ih =>
    have hpow : (2 : Nat) ^ (8 * (w + 1)) = 2 ^ 8 * 2 ^ (8 * w) := by
      rw [show 8 * (w + 1) = 8 + 8 * w by ring, pow_add]
    simp only [leBytes, leVal, ih]
    rw [hpow, Nat.mod_mul]
    norm_num

theorem leVal_leBytes_of_lt {w v : Nat} (h : v < 2 ^ (8 * w)) :
    leVal (leBytes w v) = v := by
  rw [leVal_leBytes, Nat.mod_eq_of_lt h]

theorem take_append_len {α : Type} {xs : List α} (ys : List α) {n : Nat}
    (h : xs.length = n) : (xs ++ ys).take n = xs := by
  subst h
  exact List.take_left xs ys

theorem drop_append_len {α : Type} {xs : List α} (ys : List α) {n : Nat}
    (h : xs.length = n) : (xs ++ ys).drop n = ys := by
  subst h
  exact List.drop_left xs ys

/-- The field slices a parser reads back out of a serialized
`ChunkHeader`. -/
theorem ChunkHeader.serialize_spec (magic fileOffset payloadLength fileId flags : Nat) :
    (ChunkHeader.serialize magic fileOffset payloadLength fileId flags).length = 4096 ∧
    (ChunkHeader.serialize magic fileOffset payloadLength fileId flags).take 8 =
      leBytes 8 magic ∧
    ((ChunkHeader.serialize magic fileOffset payloadLength fileId flags).drop 8).take 8 =
      leBytes 8 fileOffset ∧
    ((ChunkHeader.serialize magic fileOffset payloadLength fileId flags).drop 16).take 8 =
      leBytes 8 payloadLength ∧
    ((ChunkHeader.serialize magic fileOffset payloadLength fileId flags).drop 24).take 2 =
      leBytes 2 fileId ∧
    ((ChunkHeader.serialize magic fileOffset payloadLength fileId flags).drop 26).take 1 =
      leBytes 1 flags := by
  simp only [ChunkHeader.serialize, List.append_assoc]
  have l8 : ∀ v : Nat, (leBytes 8 v).length = 8 := fun v => leBytes_length 8 v
  refine ⟨?_, ?_, ?_, ?_, ?_, ?_⟩
  · simp only [List.length_append, List.length_replicate, leBytes_length,
      ChunkHeader.BlockSize]
  · rw [take_append_len _ (l8 magic)]
  · rw [drop_append_len _ (l8 magic), take_append_len _ (l8 fileOffset)]
  · rw [show (16 : Nat) = 8 + 8 by rfl, ← List.drop_drop,
      drop_append_len _ (l8 magic), drop_append_len _ (l8 fileOffset),
      take_append_len _ (l8 payloadLength)]
  · rw [show (24 : Nat) = 8 + (8 + 8) by rfl, ← List.drop_drop, ← List.drop_drop,
      drop_append_len _ (l8 magic), drop_append_len _ (l8 fileOffset),
      drop_append_len _ (l8 payloadLength), take_append_len _ (leBytes_length 2 fileId)]
  · rw [show (26 : Nat) = 8 + (8 + (8 + 2)) by rfl, ← List.drop_drop, ← List.drop_drop,
      ← List.drop_drop, drop_append_len _ (l8 magic), drop_append_len _ (l8 fileOffset),
      drop_append_len _ (l8 payloadLength), drop_append_len _ (leBytes_length 2 fileId),
      take_append_len _ (leBytes_length 1 flags)]

/-- Parsing an empty stream yields no frames. -/
theorem parseFrames_nil : parseFrames [] = some [] := by
  rw [parseFrames]
  simp

/-- Parsing a Sender frame followed by any remainder peels off exactly
the frame built from the descriptor. -/
theorem parseFrames_append (d : BDesc) (rest : List Nat)
    (ho : d.offset < 2 ^ 64) (hl : d.len < 2 ^ 64) (hb : d.len ≤ d.bufBytes.length) :
    parseFrames (Sender.writeBytes d ++ rest) =
      (parseFrames rest).map (fun fs => Sender.frameOf d :: fs) := by
  obtain ⟨hlen4096, hm, hfo, hpl, hfid, hfl⟩ :=
    ChunkHeader.serialize_spec ChunkHeader.Magic d.offset d.len d.fileId 0
  set H := ChunkHeader.serialize ChunkHeader.Magic d.offset d.len d.fileId 0 with hH
  set P := d.bufBytes.take d.len with hP
  have hPlen : P.length = d.len := by
    rw [hP, List.length_take]
    omega
  have hlenBS : H.length = ChunkHeader.BlockSize := by
    rw [hlen4096]
    rfl
  have hstream : Sender.writeBytes d ++ rest = H ++ (P ++ rest) := by
    simp [Sender.writeBytes, hH, hP, List.append_assoc]
  have hne : H ++ (P ++ rest) ≠ [] := by
    intro hemp
    have := congrArg List.length hemp
    simp [hlen4096] at this
  have hlen : ChunkHeader.BlockSize ≤ (H ++ (P ++ rest)).length := by
    simp [List.length_append, hlenBS]
  rw [hstream, parseFrames, if_neg hne, dif_pos hlen]
  have htake : (H ++ (P ++ rest)).take ChunkHeader.BlockSize = H :=
    take_append_len _ hlenBS
  have hdrop : (H ++ (P ++ rest)).drop ChunkHeader.BlockSize = P ++ rest :=
    drop_append_len _ hlenBS
  have hplv : leVal (((H ++ (P ++ rest)).take ChunkHeader.BlockSize).drop 16 |>.take 8) = d.len := by
    rw [htake, hpl]
    exact leVal_leBytes_of_lt (by simpa using hl)
  simp only [htake, hdrop]
  have hcond : leVal ((H.drop 16).take 8) ≤ (P ++ rest).length := by
    rw [hpl, leVal_leBytes_of_lt (by simpa using hl)]
    simp [List.length_append, hPlen]
  rw [if_pos hcond]
  have hdrop2 : (P ++ rest).drop (leVal ((H.drop 16).take 8)) = rest := by
    rw [hpl, leVal_leBytes_of_lt (by simpa using hl)]
    exact drop_append_len _ hPlen
  have htake2 : (P ++ rest).take (leVal ((H.drop 16).take 8)) = P := by
    rw [hpl, leVal_leBytes_of_lt (by simpa using hl)]
    exact take_append_len _ hPlen
  rw [hdrop2]
  have hframe :
      ({ magic := leVal (H.take 8),
         fileOffset := leVal ((H.drop 8).take 8),
         payloadLength := leVal ((H.drop 16).take 8),
         fileId := leVal ((H.drop 24).take 2),
         flags := leVal ((H.drop 26).take 1),
         payload := (P ++ rest).take (leVal ((H.drop 16).take 8)) } : Frame) =
      Sender.frameOf d := by
    rw [htake2, hm, hfo, hpl, hfid, hfl]
    simp only [Sender.frameOf]
    refine Frame.mk.injEq .. |>.mpr ⟨?_, ?_, ?_, ?_, ?_, rfl⟩
    · exact leVal_leBytes_of_lt (by decide)
    · exact leVal_leBytes_of_lt (by simpa using ho)
    · exact leVal_leBytes_of_lt (by simpa using hl)
    · simpa using leVal_leBytes 2 d.fileId
    · simpa using leVal_leBytes 1 0
  cases hrest : parseFrames rest with
  | none => simp
  | some fs => simp [hframe]

/-! ## C7 — Sender frame integrity -/

/-- C7, counterexample.  The claim says every parsed header carries
`fileId =` the descriptor's `fileId`; but `header.fileId = desc.fileId`
narrows `unsigned` to `uint16_t`, so a descriptor with `fileId = 65536`
produces a frame whose `fileId` parses as 0. -/
theorem sender_fileid_truncation :
    parseFrames (Sender.stream [⟨some ⟨[]⟩, 65536, 0, 0⟩]) =
      some [{ magic := ChunkHeader.Magic, fileOffset := 0, payloadLength := 0,
              fileId := 0, flags := 0, payload := [] }] ∧
    (65536 : Nat) ≠ 0 := by
  refine ⟨?_, by decide⟩
  have h := parseFrames_append ⟨some ⟨[]⟩, 65536, 0, 0⟩ []
    (by decide) (by decide) (by decide)
  have hs : Sender.stream [(⟨some ⟨[]⟩, 65536, 0, 0⟩ : BDesc)] =
      Sender.writeBytes ⟨some ⟨[]⟩, 65536, 0, 0⟩ ++ [] := by
    simp [Sender.stream]
  rw [hs, h, parseFrames_nil]
  rfl

/-- C7, amended.  The byte stream a Sender produces for its descriptor
sequence parses as exactly one `(ChunkHeader, payload)` frame per
descriptor — 4096-byte header immediately followed by exactly
`payloadLength` payload bytes — and every header carries the Draft magic
(`magic & ~0xFFFF = 0x55aa_aa55_da7a_0000`),
`fileOffset = descriptor offset`, `payloadLength = descriptor len`, and
`fileId = descriptor fileId mod 2^16` (the `u16 = unsigned` narrowing;
equality with the descriptor's `fileId` holds exactly when it is below
65536). -/
theorem sender_stream_parses (ds : List BDesc)
    (hok : ∀ d ∈ ds, d.offset < 2 ^ 64 ∧ d.len < 2 ^ 64 ∧ d.len ≤ d.bufBytes.length) :
    parseFrames (Sender.stream ds) = some (ds.map Sender.frameOf) ∧
    ∀ d ∈ ds,
      maskedMagic (Sender.frameOf d).magic = ChunkHeader.Magic ∧
      (Sender.frameOf d).fileOffset = d.offset ∧
      (Sender.frameOf d).payloadLength = d.len ∧
      (Sender.frameOf d).fileId = d.fileId % 65536 ∧
      (Sender.frameOf d).payload.length = d.len := by
  constructor
  · induction ds with
    | nil => exact parseFrames_nil
    | cons d ds ih =>
        have hd := hok d (by simp)
        have hds : ∀ x ∈ ds, x.offset < 2 ^ 64 ∧ x.len < 2 ^ 64 ∧ x.len ≤ x.bufBytes.length :=
          fun x hx => hok x (by simp [hx])
        have hstep : Sender.stream (d :: ds) = Sender.writeBytes d ++ Sender.stream ds := by
          simp [Sender.stream]
        rw [hstep, parseFrames_append d _ hd.1 hd.2.1 hd.2.2, ih hds]
        rfl
  · intro d hd
    have h := hok d hd
    refine ⟨(by decide : maskedMagic ChunkHeader.Magic = ChunkHeader.Magic), rfl, rfl, rfl, ?_⟩
    simp only [Sender.frameOf, List.length_take]
    omega

/-- C7, witness: a single descriptor with one payload byte. -/
theorem sender_stream_parses_witness :
    (∀ d ∈ [(⟨some ⟨[171]⟩, 1, 0, 1⟩ : BDesc)],
      d.offset < 2 ^ 64 ∧ d.len < 2 ^ 64 ∧ d.len ≤ d.bufBytes.length) ∧
    parseFrames (Sender.stream [(⟨some ⟨[171]⟩, 1, 0, 1⟩ : BDesc)]) =
      some ([(⟨some ⟨[171]⟩, 1, 0, 1⟩ : BDesc)].map Sender.frameOf) := by
  have h : ∀ d ∈ [(⟨some ⟨[171]⟩, 1, 0, 1⟩ : BDesc)],
      d.offset < 2 ^ 64 ∧ d.len < 2 ^ 64 ∧ d.len ≤ d.bufBytes.length := by decide
  exact ⟨h, (sender_stream_parses _ h).1⟩

/-! ## C1 — Receiver magic validation -/

/-- C1, counterexample.  The claim says a frame is accepted iff
`magic & ~0xFFFF == 0x55aa_aa55_da7a_0000`.  The magic
`0x55aa_aa55_da7a_0001` (version bits 1) satisfies that masked equation,
yet `Receiver::readHeader` — which compares for exact equality with
`wire::ChunkHeader::Magic` — rejects it and closes the connection. -/
theorem receiver_masked_magic_claim_false :
    maskedMagic (ChunkHeader.Magic + 1) = ChunkHeader.Magic ∧
    (Receiver.readHeaderCheck (ChunkHeader.Magic + 1)).accepted = false ∧
    (Receiver.readHeaderCheck (ChunkHeader.Magic + 1)).closedConnection = true := by
  refine ⟨by decide, ?_, ?_⟩ <;> decide

/-- C1, amended.  A frame is accepted (the state machine proceeds to read
the payload) iff the header's magic equals `0x55aa_aa55_da7a_0000`
exactly — the version bits must be zero, not merely masked off; on any
mismatch the Receiver closes that connection. -/
theorem receiver_accepts_iff_exact_magic (m : Nat) :
    ((Receiver.readHeaderCheck m).accepted = true ↔ m = ChunkHeader.Magic) ∧
    ((Receiver.readHeaderCheck m).closedConnection = true ↔ m ≠ ChunkHeader.Magic) := by
  unfold Receiver.readHeaderCheck
  split <;> simp_all

/-! ## C2 — Hasher hashes the whole physical buffer, not `len` bytes -/

/-- C2.  The spec says the recorded hash is computed over exactly the
descriptor's `len` logical bytes; `Hasher::hash` instead feeds
`desc.buf->size()` bytes to `XXH3_64bits`.  At the failing input — a
descriptor with a 2-byte buffer `[0, 0]` and logical length 1 — the code
hashes `[0, 0]` while the spec (and `Sender::write`, the transmit-side
hasher it must agree with) hashes `[0]`; the journal record still carries
`len = 1`. -/
theorem hasher_hashes_whole_buffer_not_len :
    Hasher.hashedBytes ⟨some ⟨[0, 0]⟩, 1, 0, 1⟩ = [0, 0] ∧
    Hasher.specHashedBytes ⟨some ⟨[0, 0]⟩, 1, 0, 1⟩ = [0] ∧
    Hasher.hashedBytes ⟨some ⟨[0, 0]⟩, 1, 0, 1⟩ ≠
      Hasher.specHashedBytes ⟨some ⟨[0, 0]⟩, 1, 0, 1⟩ ∧
    Sender.hashedBytes ⟨some ⟨[0, 0]⟩, 1, 0, 1⟩ =
      Hasher.specHashedBytes ⟨some ⟨[0, 0]⟩, 1, 0, 1⟩ ∧
    (∀ xxh3 : List Nat → Nat,
      Hasher.runOnceRecord xxh3 ⟨some ⟨[0, 0]⟩, 1, 0, 1⟩ =
        some ⟨xxh3 [0, 0], 0, 1, 1⟩) := by
  refine ⟨rfl, rfl, by decide, rfl, fun xxh3 => rfl⟩

/-! ## C4 — bounded queue put -/

/-- C4, counterexample.  On a queue whose element count has reached its
size limit, `put` does not block until space becomes available: the
completed call returns `Full` immediately, with nothing enqueued and the
queue unchanged (here: limit 1, content `[7]`). -/
theorem waitqueue_put_full_returns_immediately :
    WaitQueue.doPut ⟨[7], 1, false⟩ (5 : Nat) false = (WQStatus.Full, ⟨[7], 1, false⟩) ∧
    WaitQueue.put ⟨[7], 1, false⟩ (5 : Nat) = (false, ⟨[7], 1, false⟩) := by
  constructor <;> rfl

/-- C4, amended.  `put(value)` / `put(value, deadline)` never waits for
space: if the element count has reached the size limit the call returns
`Full` at once with the queue unchanged; the deadline bounds only the
internal lock acquisition, whose expiry returns `TimedOut` with the queue
unchanged; otherwise the value is appended and `OK` returned.  The value
is enqueued exactly when the status is `OK`. -/
theorem waitqueue_put_characterization {V : Type} (s : WaitQueue V) (v : V)
    (lockTimedOut : Bool) :
    (s.doPut v lockTimedOut = (WQStatus.TimedOut, s) ∨
     s.doPut v lockTimedOut = (WQStatus.Full, s) ∨
     s.doPut v lockTimedOut = (WQStatus.OK, { s with q := s.q ++ [v] })) ∧
    ((s.doPut v lockTimedOut).1 = WQStatus.TimedOut ↔ lockTimedOut = true) ∧
    ((s.doPut v lockTimedOut).1 = WQStatus.Full ↔
      lockTimedOut = false ∧ s.sizeLimit ≤ s.q.length) ∧
    ((s.doPut v lockTimedOut).1 = WQStatus.OK ↔
      lockTimedOut = false ∧ s.q.length < s.sizeLimit) ∧
    ((s.doPut v lockTimedOut).2.q =
      if (s.doPut v lockTimedOut).1 = WQStatus.OK then s.q ++ [v] else s.q) := by
  unfold WaitQueue.doPut WaitQueue.doPutOp
  rcases lockTimedOut with _ | _
  · by_cases h : s.sizeLimit ≤ s.q.length <;> simp [h] <;> omega
  · simp

/-! ## C9 — cancellation empties blocking reads but not tryGet -/

/-- C9.  After `cancel()` on a queue still holding elements, `get()` and
`get(deadline)` return empty and leave the queue untouched, while
`tryGet()` ignores the `done_` flag and still removes and returns the
front element. -/
theorem waitqueue_cancel_get_tryget {V : Type} [Inhabited V] (s : WaitQueue V)
    (h : s.q ≠ []) :
    (s.cancel).get = (none, s.cancel) ∧
    (∀ waitTimedOut : Bool, (s.cancel).getDeadline waitTimedOut = (none, s.cancel)) ∧
    (s.cancel).tryGet = (some (s.q.head h), { s.cancel with q := s.q.tail }) := by
  refine ⟨?_, ?_, ?_⟩
  · simp [WaitQueue.get, WaitQueue.cancel]
  · intro waitTimedOut
    rcases waitTimedOut with _ | _ <;> simp [WaitQueue.getDeadline, WaitQueue.cancel]
  · rcases s with ⟨q, limit, d⟩
    rcases q with _ | ⟨x, xs⟩
    · exact absurd rfl h
    · simp [WaitQueue.tryGet, WaitQueue.cancel]

/-- C9, witness at a concrete queue `[3, 4]` with limit 2. -/
theorem waitqueue_cancel_get_tryget_witness :
    ((⟨[3, 4], 2, false⟩ : WaitQueue Nat).q ≠ []) ∧
    ((⟨[3, 4], 2, false⟩ : WaitQueue Nat).cancel.get =
      (none, (⟨[3, 4], 2, false⟩ : WaitQueue Nat).cancel)) := by
  have h : ((⟨[3, 4], 2, false⟩ : WaitQueue Nat).q ≠ []) := by simp
  exact ⟨h, (waitqueue_cancel_get_tryget (⟨[3, 4], 2, false⟩ : WaitQueue Nat) h).1⟩

/-! ## Cursor seek behavior -/

theorem invalidPos_big : 2 ^ 63 ≤ invalidPos := by
  unfold invalidPos USIZE
  norm_num

/-- `Journal::end()` always lands on the invalid sentinel. -/
theorem Journal.endPos_eq (file : List Nat) : Journal.endPos file = invalidPos := by
  unfold Journal.endPos Cursor.seek
  split
  · rfl
  · simp

/-- `Journal::begin()` is record 0, or invalid when there are no
records. -/
theorem Journal.beginPos_eq (file : List Nat) :
    Journal.beginPos file = if Journal.hashCount file = 0 then invalidPos else 0 := by
  unfold Journal.beginPos Cursor.seek
  split <;> simp

/-- `++1` from a valid position: the next record, or invalid past the
last. -/
theorem Cursor.seek_one (N k : Nat) (hN : N < 2 ^ 63) (hk : k < N) :
    Cursor.seek N k 1 .Current = if k + 1 < N then k + 1 else invalidPos := by
  have hkinv : k ≠ invalidPos := by
    have := invalidPos_big
    omega
  have hmod : (k + (1 : Int).natAbs) % USIZE = k + 1 := by
    apply Nat.mod_eq_of_lt
    unfold USIZE
    omega
  unfold Cursor.seek
  rw [if_neg (by omega : ¬N = 0)]
  simp only [hmod, if_neg (by norm_num : ¬(1 : Int) < 0)]
  by_cases h : k + 1 < N
  · rw [if_neg (by omega : ¬(k + 1 < k ∨ N ≤ k + 1)), if_pos hkinv, if_pos h]
  · rw [if_pos (by omega : k + 1 < k ∨ N ≤ k + 1), if_neg h]

/-- `--1` from the invalid sentinel: the last record
(`recordCount - countAbsSz` on `size_t`). -/
theorem Cursor.seek_back_from_invalid (N : Nat) (hN : N < 2 ^ 63) (hN0 : N ≠ 0) :
    Cursor.seek N invalidPos (-1) .Current = N - 1 := by
  unfold Cursor.seek
  rw [if_neg hN0]
  simp only [if_pos (by norm_num : (-1 : Int) < 0), if_pos rfl]
  have : N + USIZE - (-1 : Int).natAbs = USIZE + (N - 1) := by
    simp only [Int.natAbs_neg, Int.natAbs_one]
    omega
  rw [this, Nat.add_mod_left, Nat.mod_eq_of_lt (by unfold USIZE; omega)]
  simp

/-- `--1` from a valid position at least 1. -/
theorem Cursor.seek_back (N k : Nat) (hN : N < 2 ^ 63) (hN0 : N ≠ 0) (hk1 : 1 ≤ k)
    (hk : k < 2 ^ 63) :
    Cursor.seek N k (-1) .Current = k - 1 := by
  have hkinv : k ≠ invalidPos := by
    have := invalidPos_big
    omega
  unfold Cursor.seek
  rw [if_neg hN0]
  simp only [if_pos (by norm_num : (-1 : Int) < 0), if_neg hkinv, Int.natAbs_neg,
    Int.natAbs_one]
  rw [if_neg (by omega : ¬k < 1)]

/-- `begin() + N` reaches the invalid sentinel (for `N ≠ 0`, from
record 0 by `N`). -/
theorem Cursor.seek_add_count (N : Nat) (hN : N < 2  ^ 63) (hN0 : N ≠ 0) :
    Cursor.seek N 0 (N : Int) .Current = invalidPos := by
  have hmod : ((0 : Nat) + ((N : Int)).natAbs) % USIZE = N := by
    simp only [Int.natAbs_ofNat, Nat.zero_add]
    exact Nat.mod_eq_of_lt (by unfold USIZE; omega)
  unfold Cursor.seek
  rw [if_neg hN0]
  simp only [hmod, if_neg (Int.natCast_nonneg N).not_lt]
  rw [if_pos (by omega : N < 0 ∨ N ≤ N)]

/-- `end() - N` reaches record 0 (for `N ≠ 0`, from the invalid
sentinel by `-N`). -/
theorem Cursor.seek_sub_count (N : Nat) (hN : N < 2 ^ 63) (hN0 : N ≠ 0) :
    Cursor.seek N invalidPos (-(N : Int)) .Current = 0 := by
  unfold Cursor.seek
  rw [if_neg hN0]
  have hneg : (-(N : Int)) < 0 := by omega
  simp only [if_pos hneg, if_pos rfl, Int.natAbs_neg, Int.natAbs_ofNat]
  rw [show N + USIZE - N = USIZE by omega, Nat.mod_self]
  simp

/-- A valid index dereferences to the record re-read at
`hashOffset + idx * 32`. -/
theorem Cursor.hashRecordAt_valid (file : List Nat) (k : Nat)
    (hk : k < Journal.hashCount file) :
    Cursor.hashRecordAt file k =
      some (HashRecord.deserialize
        ((file.drop (Journal.journalOffsetOf file + k * 32)).take 32)) := by
  have hv : Cursor.validAt (Journal.hashCount file) k = true := by
    simp only [Cursor.validAt, Bool.and_eq_true, decide_eq_true_eq]
    omega
  unfold Cursor.hashRecordAt
  rw [if_pos hv]

/-- Forward iteration from position `k` visits records
`k, k+1, …, recordCount - 1` and stops at `end()`. -/
theorem Journal.iterFwd_spec (file : List Nat) (hN : Journal.hashCount file < 2 ^ 63) :
    ∀ j k, k + j = Journal.hashCount file → 0 < j →
      Journal.iterFwd file k (j + 1) =
        (List.range' k j).map (Cursor.hashRecordAt file) := by
  intro j
  induction j with
  | zero => intro k _ h0; omega
  | succ j ih =>
      intro k hk _
      have hkN : k < Journal.hashCount file := by omega
      have hkinv : ¬k = Journal.endPos file := by
        rw [Journal.endPos_eq]
        have := invalidPos_big
        omega
      rw [Journal.iterFwd, if_neg hkinv]
      have hadd : CursorIter.add file k 1 =
          if k + 1 < Journal.hashCount file then k + 1 else invalidPos := by
        unfold CursorIter.add
        exact Cursor.seek_one _ _ hN hkN
      rcases Nat.eq_zero_or_pos j with rfl | hj
      · have hstop : ¬k + 1 < Journal.hashCount file := by omega
        rw [hadd, if_neg hstop, Journal.iterFwd,
          if_pos (Journal.endPos_eq file).symm]
        simp [List.range']
      · have hlt : k + 1 < Journal.hashCount file := by omega
        rw [hadd, if_pos hlt, ih (k + 1) (by omega) hj, List.range'_succ]
        simp

/-- Backward iteration with position and fuel both `j < recordCount`
visits records `j-1, …, 0`, i.e. records `0, …, j-1` reversed. -/
theorem Journal.iterBwd_spec (file : List Nat) (hN : Journal.hashCount file < 2 ^ 63) :
    ∀ j, j < Journal.hashCount file →
      Journal.iterBwd file j j =
        ((List.range' 0 j).map (Cursor.hashRecordAt file)).reverse := by
  intro j
  induction j with
  | zero => intro _; rfl
  | succ j ih =>
      intro hj
      have hN0 : Journal.hashCount file ≠ 0 := by omega
      simp only [Journal.iterBwd]
      have hsub : CursorIter.sub file (j + 1) 1 = j := by
        unfold CursorIter.sub
        simpa using Cursor.seek_back _ (j + 1) hN hN0 (by omega) (by omega)
      rw [hsub, ih (by omega), List.range'_concat]
      simp

/-! ## C6 — cursor bidirectionality -/

/-- C6.  For every journal (byte image `file`) with
`N = hashCount file` records (`N` within `off_t` range),
`begin() + N == end()` and `end() - N == begin()` (iterator equality
compares the cursors' positions), and iterating the `N` records forward
from `begin()` to `end()` and then backward from `end()` visits the same
dereferenced records in reverse order. -/
theorem cursor_bidirectionality (file : List Nat)
    (hN : Journal.hashCount file < 2 ^ 63) :
    CursorIter.add file (Journal.beginPos file) (Journal.hashCount file : Int) =
      Journal.endPos file ∧
    CursorIter.sub file (Journal.endPos file) (Journal.hashCount file : Int) =
      Journal.beginPos file ∧
    Journal.iterBwd file (Journal.endPos file) (Journal.hashCount file) =
      (Journal.iterFwd file (Journal.beginPos file)
        (Journal.hashCount file + 1)).reverse := by
  rcases Nat.eq_zero_or_pos (Journal.hashCount file) with h0 | hpos
  · have hb : Journal.beginPos file = invalidPos := by
      rw [Journal.beginPos_eq, if_pos h0]
    refine ⟨?_, ?_, ?_⟩
    · rw [Journal.endPos_eq, hb]
      unfold CursorIter.add Cursor.seek
      rw [if_pos h0]
    · rw [Journal.endPos_eq, hb]
      unfold CursorIter.sub Cursor.seek
      rw [if_pos h0]
    · rw [h0]
      have h1 : Journal.iterFwd file (Journal.beginPos file) (0 + 1) = [] := by
        rw [Journal.iterFwd, if_pos (by rw [hb, Journal.endPos_eq])]
      rw [h1]
      rfl
  · have hN0 : Journal.hashCount file ≠ 0 := by omega
    have hb : Journal.beginPos file = 0 := by
      rw [Journal.beginPos_eq, if_neg hN0]
    refine ⟨?_, ?_, ?_⟩
    · rw [hb, Journal.endPos_eq]
      unfold CursorIter.add
      exact Cursor.seek_add_count _ hN hN0
    · rw [hb, Journal.endPos_eq]
      unfold CursorIter.sub
      exact Cursor.seek_sub_count _ hN hN0
    · obtain ⟨m, hm⟩ : ∃ m, Journal.hashCount file = m + 1 :=
        ⟨_, (Nat.succ_pred_eq_of_pos hpos).symm⟩
      have hsub : CursorIter.sub file (Journal.endPos file) 1 = m := by
        rw [Journal.endPos_eq]
        unfold CursorIter.sub
        rw [hm] at hN hN0 ⊢
        rw [Cursor.seek_back_from_invalid (m + 1) hN hN0]
        omega
      rw [hm, hb]
      simp only [Journal.iterBwd]
      rw [hsub, Journal.iterBwd_spec file hN m (by omega),
        Journal.iterFwd_spec file hN (m + 1) 0 (by omega) (by omega),
        List.range'_concat]
      simp

set_option maxRecDepth 8000 in
/-- C6, witness: a concrete one-record journal image. -/
theorem cursor_bidirectionality_witness :
    Journal.hashCount
        (Journal.fileBytes (fun l => l) ([] : List Nat) [⟨1, 2, 3, 4⟩]) < 2 ^ 63 ∧
    CursorIter.add (Journal.fileBytes (fun l => l) ([] : List Nat) [⟨1, 2, 3, 4⟩])
        (Journal.beginPos (Journal.fileBytes (fun l => l) ([] : List Nat) [⟨1, 2, 3, 4⟩]))
        (Journal.hashCount (Journal.fileBytes (fun l => l) ([] : List Nat) [⟨1, 2, 3, 4⟩]) : Int) =
      Journal.endPos (Journal.fileBytes (fun l => l) ([] : List Nat) [⟨1, 2, 3, 4⟩]) := by
  have h : Journal.hashCount
      (Journal.fileBytes (fun l => l) ([] : List Nat) [⟨1, 2, 3, 4⟩]) < 2 ^ 63 := by decide
  exact ⟨h, (cursor_bidirectionality _ h).1⟩

/-! ## Journal file layout lemmas -/

theorem roundUpBlock_ge (n : Nat) : n ≤ roundUpBlock n := by
  unfold roundUpBlock JournalBlockSize
  have hd := Nat.div_add_mod (n + 511) 512
  have hm : (n + 511) % 512 < 512 := Nat.mod_lt _ (by norm_num)
  omega

theorem HashRecord.serialize_length (r : HashRecord) : r.serialize.length = 32 := by
  simp [HashRecord.serialize, leBytes_length]

theorem Journal.headerRegion_length {FI : Type} (enc : List FI → List Nat)
    (info : List FI) :
    (Journal.headerRegion enc info).length =
      roundUpBlock (JournalHeaderOffset + (enc info).length) := by
  have hge := roundUpBlock_ge (JournalHeaderOffset + (enc info).length)
  simp only [Journal.headerRegion, fileHeaderBytes, journalMagicBytes,
    List.append_assoc, List.length_append, List.length_replicate, leBytes_length,
    List.length_cons, List.length_nil, JournalHeaderOffset] at *
  omega

theorem Journal.foldl_writeHash (records : List HashRecord) (acc : List Nat) :
    records.foldl Journal.writeHash acc =
      acc ++ (records.map HashRecord.serialize).flatten := by
  induction records generalizing acc with
  | nil => simp
  | cons r rs ih => simp [Journal.writeHash, ih]

theorem flatten_serialize_length (records : List HashRecord) :
    ((records.map HashRecord.serialize).flatten).length = 32 * records.length := by
  induction records with
  | nil => simp
  | cons r rs ih =>
      simp [HashRecord.serialize_length, ih]
      ring

theorem flatten_serialize_slice (records : List HashRecord) :
    ∀ i (h : i < records.length),
      (((records.map HashRecord.serialize).flatten).drop (i * 32)).take 32 =
        (records.get ⟨i, h⟩).serialize := by
  induction records with
  | nil => intro i h; exact absurd h (by simp)
  | cons r rs ih =>
      intro i h
      cases i with
      | zero =>
          simp only [List.map_cons, List.flatten_cons, Nat.zero_mul, List.drop_zero]
          rw [take_append_len _ (HashRecord.serialize_length r)]
          rfl
      | succ i =>
          simp only [List.map_cons, List.flatten_cons]
          rw [show (i + 1) * 32 = 32 + i * 32 by ring, ← List.drop_drop,
            drop_append_len _ (HashRecord.serialize_length r)]
          exact ih i (by simp only [List.length_cons] at h; omega)

theorem HashRecord.deserialize_serialize (r : HashRecord)
    (h1 : r.hash < 2 ^ 64) (h2 : r.offset < 2 ^ 64) (h3 : r.size < 2 ^ 64)
    (h4 : r.fileId < 2 ^ 16) :
    HashRecord.deserialize r.serialize = r := by
  obtain ⟨rh, ro, rs, rf⟩ := r
  simp only [HashRecord.serialize, HashRecord.deserialize, List.append_assoc] at *
  rw [HashRecord.mk.injEq]
  refine ⟨?_, ?_, ?_, ?_⟩
  · rw [take_append_len _ (leBytes_length 8 rh)]
    exact leVal_leBytes_of_lt (by simpa using h1)
  · rw [drop_append_len _ (leBytes_length 8 rh),
      take_append_len _ (leBytes_length 8 ro)]
    exact leVal_leBytes_of_lt (by simpa using h2)
  · rw [show (16 : Nat) = 8 + 8 by rfl, ← List.drop_drop,
      drop_append_len _ (leBytes_length 8 rh),
      drop_append_len _ (leBytes_length 8 ro),
      take_append_len _ (leBytes_length 8 rs)]
    exact leVal_leBytes_of_lt (by simpa using h3)
  · rw [show (24 : Nat) = 8 + (8 + 8) by rfl, ← List.drop_drop, ← List.drop_drop,
      drop_append_len _ (leBytes_length 8 rh),
      drop_append_len _ (leBytes_length 8 ro),
      drop_append_len _ (leBytes_length 8 rs),
      take_append_len _ (leBytes_length 2 rf)]
    exact leVal_leBytes_of_lt (by simpa using h4)

theorem Journal.fileBytes_eq {FI : Type} (enc : List FI → List Nat) (info : List FI)
    (records : List HashRecord) :
    Journal.fileBytes enc info records =
      Journal.headerRegion enc info ++ (records.map HashRecord.serialize).flatten :=
  Journal.foldl_writeHash records _

theorem Journal.journalOffsetOf_fileBytes {FI : Type} (enc : List FI → List Nat)
    (info : List FI) (records : List HashRecord)
    (hjo : roundUpBlock (JournalHeaderOffset + (enc info).length) < 2 ^ 64) :
    Journal.journalOffsetOf (Journal.fileBytes enc info records) =
      roundUpBlock (JournalHeaderOffset + (enc info).length) := by
  rw [Journal.fileBytes_eq]
  unfold Journal.journalOffsetOf Journal.headerRegion fileHeaderBytes
  simp only [List.append_assoc]
  rw [drop_append_len _ (by rfl : journalMagicBytes.length = 8),
    take_append_len _ (leBytes_length 8 _)]
  exact leVal_leBytes_of_lt (by simpa using hjo)

theorem Journal.cborSizeOf_fileBytes {FI : Type} (enc : List FI → List Nat)
    (info : List FI) (records : List HashRecord)
    (hcs : (enc info).length < 2 ^ 64) :
    Journal.cborSizeOf (Journal.fileBytes enc info records) = (enc info).length := by
  rw [Journal.fileBytes_eq]
  unfold Journal.cborSizeOf Journal.headerRegion fileHeaderBytes
  simp only [List.append_assoc]
  rw [show (16 : Nat) = 8 + 8 by rfl, ← List.drop_drop,
    drop_append_len _ (by rfl : journalMagicBytes.length = 8),
    drop_append_len _ (leBytes_length 8 _),
    take_append_len _ (leBytes_length 8 _)]
  exact leVal_leBytes_of_lt (by simpa using hcs)

theorem Journal.length_fileBytes {FI : Type} (enc : List FI → List Nat)
    (info : List FI) (records : List HashRecord) :
    (Journal.fileBytes enc info records).length =
      roundUpBlock (JournalHeaderOffset + (enc info).length) + 32 * records.length := by
  rw [Journal.fileBytes_eq, List.length_append, Journal.headerRegion_length,
    flatten_serialize_length]

theorem Journal.hashCount_fileBytes {FI : Type} (enc : List FI → List Nat)
    (info : List FI) (records : List HashRecord)
    (hjo : roundUpBlock (JournalHeaderOffset + (enc info).length) < 2 ^ 64) :
    Journal.hashCount (Journal.fileBytes enc info records) = records.length := by
  unfold Journal.hashCount
  rw [Journal.journalOffsetOf_fileBytes enc info records hjo,
    Journal.length_fileBytes]
  unfold journalRecordCount
  rcases Nat.eq_zero_or_pos records.length with h0 | hpos
  · rw [h0, if_pos (by omega)]
  · rw [if_neg (by omega)]
    rw [show roundUpBlock (JournalHeaderOffset + (enc info).length) + 32 * records.length -
        roundUpBlock (JournalHeaderOffset + (enc info).length) = 32 * records.length by omega]
    exact Nat.mul_div_cancel_left records.length (by norm_num)

theorem Journal.fileInfoOf_fileBytes {FI : Type} (enc : List FI → List Nat)
    (dec : List Nat → Option (List FI)) (info : List FI) (records : List HashRecord)
    (hcs : (enc info).length < 2 ^ 64) :
    Journal.fileInfoOf dec (Journal.fileBytes enc info records) = dec (enc info) := by
  unfold Journal.fileInfoOf
  rw [Journal.cborSizeOf_fileBytes enc info records hcs]
  have hslice : ((Journal.fileBytes enc info records).drop JournalHeaderOffset).take
      (enc info).length = enc info := by
    rw [Journal.fileBytes_eq]
    unfold Journal.headerRegion fileHeaderBytes
    simp only [List.append_assoc, JournalHeaderOffset]
    rw [show (64 : Nat) = 8 + (8 + (8 + 40)) by rfl, ← List.drop_drop, ← List.drop_drop,
      ← List.drop_drop,
      drop_append_len _ (by rfl : journalMagicBytes.length = 8),
      drop_append_len _ (leBytes_length 8 _),
      drop_append_len _ (leBytes_length 8 _),
      drop_append_len _ (by simp : (List.replicate (64 - 24) (0 : Nat)).length = 40),
      take_append_len _ rfl]
  rw [hslice]

/-- Dereferencing record `i` of a journal built by create + appends
yields exactly the `i`-th appended record. -/
theorem Cursor.hashRecordAt_fileBytes {FI : Type} (enc : List FI → List Nat)
    (info : List FI) (records : List HashRecord)
    (hjo : roundUpBlock (JournalHeaderOffset + (enc info).length) < 2 ^ 64)
    (hrec : ∀ r ∈ records,
      r.hash < 2 ^ 64 ∧ r.offset < 2 ^ 64 ∧ r.size < 2 ^ 64 ∧ r.fileId < 2 ^ 16)
    (i : Nat) (h : i < records.length) :
    Cursor.hashRecordAt (Journal.fileBytes enc info records) i =
      some (records.get ⟨i, h⟩) := by
  have hc := Journal.hashCount_fileBytes enc info records hjo
  rw [Cursor.hashRecordAt_valid _ _ (by rw [hc]; exact h),
    Journal.journalOffsetOf_fileBytes enc info records hjo]
  have hdrop : (Journal.fileBytes enc info records).drop
      (roundUpBlock (JournalHeaderOffset + (enc info).length) + i * 32) =
      ((records.map HashRecord.serialize).flatten).drop (i * 32) := by
    rw [Journal.fileBytes_eq, ← List.drop_drop,
      drop_append_len _ (Journal.headerRegion_length enc info)]
  rw [hdrop, flatten_serialize_slice records i h]
  have hm := hrec (records.get ⟨i, h⟩) (records.get_mem i h)
  rw [HashRecord.deserialize_serialize _ hm.1 hm.2.1 hm.2.2.1 hm.2.2.2]

/-! ## C3 — journal round-trip -/

/-- C3.  A journal created with FileInfo list `info` (CBOR codec
`enc`/`dec`, assumed a faithful pair on `info`) and appended with the
records `records` via `writeHash`, when re-opened read-only, passes the
header check, yields `fileInfo() = info` and
`hashCount() = records.length`, and iterating from `begin()` to `end()`
yields exactly the appended records in append order.  The size
hypotheses restate the C++ field types (`u64`/`u16` record fields,
`off_t` file offsets). -/
theorem journal_roundtrip {FI : Type} (enc : List FI → List Nat)
    (dec : List Nat → Option (List FI)) (info : List FI) (records : List HashRecord)
    (hdec : dec (enc info) = some info)
    (hsize : roundUpBlock (JournalHeaderOffset + (enc info).length) < 2 ^ 63 - 1)
    (hcount : records.length < 2 ^ 63)
    (hrec : ∀ r ∈ records,
      r.hash < 2 ^ 64 ∧ r.offset < 2 ^ 64 ∧ r.size < 2 ^ 64 ∧ r.fileId < 2 ^ 16) :
    Journal.checkFileHeader (Journal.fileBytes enc info records) = true ∧
    Journal.fileInfoOf dec (Journal.fileBytes enc info records) = some info ∧
    Journal.hashCount (Journal.fileBytes enc info records) = records.length ∧
    Journal.iterFwd (Journal.fileBytes enc info records)
        (Journal.beginPos (Journal.fileBytes enc info records))
        (records.length + 1) = records.map some := by
  have hjo : roundUpBlock (JournalHeaderOffset + (enc info).length) < 2 ^ 64 := by
    have h64 : (2 : Nat) ^ 63 - 1 < 2 ^ 64 := by norm_num
    omega
  have hcs : (enc info).length < 2 ^ 64 := by
    have := roundUpBlock_ge (JournalHeaderOffset + (enc info).length)
    omega
  have hc := Journal.hashCount_fileBytes enc info records hjo
  refine ⟨?_, ?_, hc, ?_⟩
  · have htake : (Journal.fileBytes enc info records).take 8 = journalMagicBytes := by
      rw [Journal.fileBytes_eq]
      unfold Journal.headerRegion fileHeaderBytes
      simp only [List.append_assoc]
      exact take_append_len _ (by rfl)
    unfold Journal.checkFileHeader
    rw [Journal.journalOffsetOf_fileBytes enc info records hjo,
      Journal.length_fileBytes, htake]
    simp only [Bool.and_eq_true, decide_eq_true_eq, beq_self_eq_true, and_true]
    exact ⟨hsize, by omega⟩
  · rw [Journal.fileInfoOf_fileBytes enc dec info records hcs, hdec]
  · rcases Nat.eq_zero_or_pos records.length with h0 | hpos
    · obtain rfl := List.length_eq_zero.mp h0
      have hb : Journal.beginPos (Journal.fileBytes enc info []) = invalidPos := by
        rw [Journal.beginPos_eq, if_pos (by rw [hc]; rfl)]
      rw [show ([] : List HashRecord).length + 1 = 0 + 1 by rfl, Journal.iterFwd,
        if_pos (by rw [hb, Journal.endPos_eq])]
      rfl
    · have hN : Journal.hashCount (Journal.fileBytes enc info records) < 2 ^ 63 := by
        rw [hc]
        exact hcount
      have hb : Journal.beginPos (Journal.fileBytes enc info records) = 0 := by
        rw [Journal.beginPos_eq, if_neg (by rw [hc]; omega)]
      rw [hb, Journal.iterFwd_spec _ hN records.length 0 (by rw [hc]; omega) hpos]
      refine List.ext_get (by simp) ?_
      intro i h1 h2
      have hi : i < records.length := by
        simpa using h1
      have hr := Cursor.hashRecordAt_fileBytes enc info records hjo hrec i hi
      simp only [List.get_map, List.get_range']
      simpa using hr

set_option maxRecDepth 8000 in
/-- C3, witness: a journal with one FileInfo entry (identity codec) and
the three hash records of scenario S4. -/
theorem journal_roundtrip_witness :
    ((fun (l : List Nat) => some l) ((fun (l : List Nat) => l) [42]) = some [42]) ∧
    Journal.fileInfoOf (fun (l : List Nat) => some l)
        (Journal.fileBytes (fun (l : List Nat) => l) [42]
          [⟨170, 512, 512, 42⟩, ⟨187, 1024, 512, 42⟩, ⟨204, 1536, 512, 42⟩]) =
      some [42] ∧
    Journal.hashCount
        (Journal.fileBytes (fun (l : List Nat) => l) [42]
          [⟨170, 512, 512, 42⟩, ⟨187, 1024, 512, 42⟩, ⟨204, 1536, 512, 42⟩]) = 3 := by
  have h1 : (fun (l : List Nat) => some l) ((fun (l : List Nat) => l) [42]) =
      some [42] := rfl
  have h2 : roundUpBlock
      (JournalHeaderOffset + ((fun (l : List Nat) => l) [42]).length) < 2 ^ 63 - 1 := by
    decide
  have h3 : ([⟨170, 512, 512, 42⟩, ⟨187, 1024, 512, 42⟩,
      ⟨204, 1536, 512, 42⟩] : List HashRecord).length < 2 ^ 63 := by decide
  have h4 : ∀ r ∈ ([⟨170, 512, 512, 42⟩, ⟨187, 1024, 512, 42⟩,
      ⟨204, 1536, 512, 42⟩] : List HashRecord),
      r.hash < 2 ^ 64 ∧ r.offset < 2 ^ 64 ∧ r.size < 2 ^ 64 ∧ r.fileId < 2 ^ 16 := by
    decide
  obtain ⟨-, hfi, hhc, -⟩ := journal_roundtrip (fun (l : List Nat) => l)
    (fun (l : List Nat) => some l) [42]
    [⟨170, 512, 512, 42⟩, ⟨187, 1024, 512, 42⟩, ⟨204, 1536, 512, 42⟩] h1 h2 h3 h4
  exact ⟨h1, hfi, hhc⟩

/-! ## Buffer pool free-list lemmas -/

theorem FreeList.End_big : 2 ^ 32 - 1 < FreeList.End := by
  unfold FreeList.End USIZE
  norm_num

/-- Links outside the chain do not affect it. -/
theorem FreeChain.set {list : List Nat} {f : Nat} {ch : List Nat}
    (h : FreeChain list f ch) (idx v : Nat) (hnot : idx ∉ ch) :
    FreeChain (list.set idx v) f ch := by
  induction h with
  | nil => exact FreeChain.nil
  | cons hne hlt hch ih =>
      rename_i i ch'
      have hi : i ≠ idx := fun heq => hnot (heq ▸ List.mem_cons_self i ch')
      have hlt' : i < (list.set idx v).length := by
        simpa using hlt
      refine FreeChain.cons hne hlt' ?_
      have hgd : (list.set idx v).getD i 0 = list.getD i 0 := by
        rw [List.getD_eq_getElem _ _ hlt', List.getD_eq_getElem _ _ hlt]
        exact List.getElem_set_ne (fun hx => hi hx.symm) _
      rw [hgd]
      exact ih (fun hx => hnot (List.mem_cons_of_mem i hx))

/-- The initial free list chains `k, k+1, …, count-1` from any start
`k < count`. -/
theorem FreeChain.mkInit_aux (count : Nat) (hc : count < FreeList.End) :
    ∀ j k, k + j = count → 0 < j →
      FreeChain (FreeList.mkInit count).list k (List.range' k j) := by
  have hlen : (FreeList.mkInit count).list.length = count := by
    simp [FreeList.mkInit]
  intro j
  induction j with
  | zero => intro k _ h0; omega
  | succ j ih =>
      intro k hk _
      have hklt : k < count := by omega
      have hkl : k < (FreeList.mkInit count).list.length := by omega
      have hsplit : List.range' k (j + 1) = k :: List.range' (k + 1) j := by
        simpa using List.range'_succ k j 1
      rw [hsplit]
      refine FreeChain.cons (by omega) hkl ?_
      have hget : (FreeList.mkInit count).list.getD k 0 =
          if k = count - 1 then FreeList.End else k + 1 := by
        rw [List.getD_eq_getElem _ _ hkl]
        unfold FreeList.mkInit
        by_cases hlast : k = count - 1
        · subst hlast
          rw [if_pos rfl]
          exact List.getElem_set_self
            (by simp only [List.length_set, List.length_map, List.length_range]; omega)
        · rw [if_neg hlast]
          rw [List.getElem_set_ne (fun hx => hlast hx.symm) _]
          simp
      rcases Nat.eq_zero_or_pos j with rfl | hj
      · have hlast : k = count - 1 := by omega
        rw [hget, if_pos hlast]
        exact FreeChain.nil
      · have hlast : ¬k = count - 1 := by omega
        rw [hget, if_neg hlast]
        exact ih (k + 1) (by omega) hj

/-- A chain from a non-sentinel head starts with that head. -/
theorem FreeChain.inv_ne_end {list : List Nat} {f : Nat} {ch : List Nat}
    (h : FreeChain list f ch) (hne : f ≠ FreeList.End) :
    ∃ ch', ch = f :: ch' ∧ f < list.length ∧ FreeChain list (list.getD f 0) ch' := by
  cases h with
  | nil => exact absurd rfl hne
  | cons hne2 hlt hch => exact ⟨_, rfl, hlt, hch⟩

/-- One pool operation preserves the conservation invariant. -/
theorem BufferPool.step_inv (count : Nat) (hbig : count < FreeList.GetFail)
    (st : PoolState) (op : PoolOp) (hinv : PoolInv count st) :
    PoolInv count (BufferPool.step st op) := by
  obtain ⟨hlen, ch, hchain, hperm⟩ := hinv
  have hEndGF : FreeList.GetFail < FreeList.End := by
    unfold FreeList.GetFail FreeList.End USIZE
    norm_num
  cases op with
  | get =>
      by_cases hEnd : st.freeList.free = FreeList.End
      · have hstep : BufferPool.step st .get = st := by
          unfold BufferPool.step FreeList.get
          rw [if_pos hEnd]
          simp
        rw [hstep]
        exact ⟨hlen, ch, hchain, hperm⟩
      · obtain ⟨ch', rfl, hlt, hch⟩ := hchain.inv_ne_end hEnd
        have hfree_mem : st.freeList.free ∈ List.range count :=
          hperm.subset (by simp)
        have hfree_lt : st.freeList.free < count := List.mem_range.mp hfree_mem
        have hstep : BufferPool.step st .get =
            { freeList := ⟨st.freeList.list, st.freeList.list.getD st.freeList.free 0⟩,
              held := st.freeList.free :: st.held } := by
          unfold BufferPool.step FreeList.get
          rw [if_neg hEnd]
          simp only
          rw [if_neg (by omega : ¬st.freeList.free = FreeList.GetFail)]
        rw [hstep]
        exact ⟨hlen, ch', hch, List.perm_middle.trans hperm⟩
  | drop idx =>
      by_cases hmem : idx ∈ st.held
      · have hidx_mem : idx ∈ List.range count :=
          hperm.subset (by simp [hmem])
        have hidx_lt : idx < count := List.mem_range.mp hidx_mem
        have hnodup : (ch ++ st.held).Nodup :=
          hperm.symm.nodup (List.nodup_range count)
        have hnotch : idx ∉ ch :=
          fun hx => (List.disjoint_of_nodup_append hnodup) hx hmem
        have hstep : BufferPool.step st (.drop idx) =
            { freeList := ⟨st.freeList.list.set idx st.freeList.free, idx⟩,
              held := st.held.erase idx } := by
          simp only [BufferPool.step, FreeList.put]
          rw [if_pos hmem, if_pos (by omega : idx < st.freeList.list.length)]
        rw [hstep]
        refine ⟨?_, idx :: ch, ?_, ?_⟩
        · show (st.freeList.list.set idx st.freeList.free).length = count
          simp only [List.length_set]
          exact hlen
        · show FreeChain (st.freeList.list.set idx st.freeList.free) idx (idx :: ch)
          refine FreeChain.cons (by omega) (by simp only [List.length_set]; omega) ?_
          have hg : (st.freeList.list.set idx st.freeList.free).getD idx 0 =
              st.freeList.free := by
            rw [List.getD_eq_getElem _ _ (by simp only [List.length_set]; omega)]
            exact List.getElem_set_self (by simp only [List.length_set]; omega)
          rw [hg]
          exact hchain.set idx st.freeList.free hnotch
        · show ((idx :: ch) ++ st.held.erase idx).Perm (List.range count)
          have h1 : st.held.Perm (idx :: st.held.erase idx) :=
            List.perm_cons_erase hmem
          exact (List.perm_middle.symm.trans
            (List.Perm.append_left ch h1.symm)).trans hperm
      · have hstep : BufferPool.step st (.drop idx) = st := by
          simp only [BufferPool.step]
          rw [if_neg hmem]
        rw [hstep]
        exact ⟨hlen, ch, hchain, hperm⟩

/-! ## C8 — buffer pool conservation -/

/-- C8.  For a pool of capacity `count`, under every operation sequence
(acquisitions and handle drops; moves only transfer ownership), the free
list's chain and the held indices always partition `0 .. count-1` — each
index lives in exactly one of the two — and once every acquired handle
has dropped, all `count` indices are again in the free list. -/
theorem buffer_pool_conservation (count : Nat) (ops : List PoolOp)
    (hc : 0 < count) (hbig : count < FreeList.GetFail) :
    ∃ ch, FreeChain (BufferPool.run count ops).freeList.list
        (BufferPool.run count ops).freeList.free ch ∧
      (ch ++ (BufferPool.run count ops).held).Perm (List.range count) ∧
      ((BufferPool.run count ops).held = [] → ch.Perm (List.range count)) := by
  have hcE : count < FreeList.End := by
    have h1 := FreeList.End_big
    unfold FreeList.GetFail at hbig
    omega
  have hinit : PoolInv count (BufferPool.init count) := by
    refine ⟨by simp [BufferPool.init, FreeList.mkInit], List.range count, ?_,
      by simp [BufferPool.init]⟩
    have := FreeChain.mkInit_aux count hcE count 0 (by omega) hc
    simpa [BufferPool.init, List.range_eq_range'] using this
  have hfold : ∀ (l : List PoolOp) (st : PoolState), PoolInv count st →
      PoolInv count (l.foldl BufferPool.step st) := by
    intro l
    induction l with
    | nil => intro st h; exact h
    | cons op l ih =>
        intro st h
        exact ih _ (BufferPool.step_inv count hbig st op h)
  have hrun : PoolInv count (BufferPool.run count ops) := hfold ops _ hinit
  obtain ⟨-, ch, hchain, hperm⟩ := hrun
  refine ⟨ch, hchain, hperm, fun hempty => ?_⟩
  simpa [hempty] using hperm

/-- C8, witness: capacity 2, two acquisitions then both drops. -/
theorem buffer_pool_conservation_witness :
    0 < 2 ∧ 2 < FreeList.GetFail ∧
    ∃ ch, FreeChain (BufferPool.run 2 [.get, .get, .drop 0, .drop 1]).freeList.list
        (BufferPool.run 2 [.get, .get, .drop 0, .drop 1]).freeList.free ch ∧
      (ch ++ (BufferPool.run 2 [.get, .get, .drop 0, .drop 1]).held).Perm
        (List.range 2) ∧
      ((BufferPool.run 2 [.get, .get, .drop 0, .drop 1]).held = [] →
        ch.Perm (List.range 2)) :=
  ⟨by decide, by decide, buffer_pool_conservation 2 _ (by decide) (by decide)⟩

/-! ## C10 — journal create-mode constructor is exclusive -/

/-- C10.  `Journal::Journal(path, info)` opens with
`O_CREAT | O_EXCL`: when a file already exists at `path` the constructor
throws and the filesystem — in particular the existing file's contents —
is left exactly as it was. -/
theorem journal_create_exclusive {FI : Type} (enc : List FI → List Nat)
    (fs : FileSystem) (path : String) (info : List FI)
    (h : (List.lookup path fs).isSome = true) :
    Journal.create enc fs path info = (Except.error (), fs) := by
  unfold Journal.create
  simp [h]

/-! ## diffJournals map lemmas -/

theorem DKey.lt_total {a b : DKey} (h : a ≠ b) :
    DKey.lt a b = true ∨ DKey.lt b a = true := by
  obtain ⟨f1, o1⟩ := a
  obtain ⟨f2, o2⟩ := b
  simp only [ne_eq, DKey.mk.injEq, not_and] at h
  simp only [DKey.lt, Bool.or_eq_true, Bool.and_eq_true, decide_eq_true_eq, beq_iff_eq]
  omega

theorem DKey.lt_asymm {a b : DKey} (h : DKey.lt a b = true) : DKey.lt b a = false := by
  obtain ⟨f1, o1⟩ := a
  obtain ⟨f2, o2⟩ := b
  rw [Bool.eq_false_iff]
  simp only [ne_eq, DKey.lt, Bool.or_eq_true, Bool.and_eq_true, decide_eq_true_eq,
    beq_iff_eq] at h ⊢
  omega

theorem DMap.find_none {m : DMap} {k : DKey} (h : k ∉ DMap.keys m) :
    DMap.find m k = none := by
  induction m with
  | nil => rfl
  | cons e m ih =>
      simp only [DMap.keys, List.map_cons, List.mem_cons] at h
      push_neg at h
      simp only [DMap.find, if_neg h.1]
      exact ih (by simpa [DMap.keys] using h.2)

theorem DMap.find_insert_self (m : DMap) (k : DKey) (v : DVal)
    (h : k ∉ DMap.keys m) : DMap.find (DMap.insert k v m) k = some v := by
  induction m with
  | nil => simp [DMap.insert, DMap.find]
  | cons e m ih =>
      simp only [DMap.keys, List.map_cons, List.mem_cons] at h
      push_neg at h
      simp only [DMap.insert]
      by_cases hlt : DKey.lt k e.1 = true
      · rw [if_pos hlt]
        simp [DMap.find]
      · rw [if_neg hlt]
        simp only [DMap.find, if_neg h.1]
        exact ih (by simpa [DMap.keys] using h.2)

theorem DMap.find_insert_ne (m : DMap) (k k' : DKey) (v : DVal) (h : k' ≠ k) :
    DMap.find (DMap.insert k v m) k' = DMap.find m k' := by
  induction m with
  | nil => simp [DMap.insert, DMap.find, if_neg h]
  | cons e m ih =>
      simp only [DMap.insert]
      by_cases hlt : DKey.lt k e.1 = true
      · rw [if_pos hlt]
        simp only [DMap.find, if_neg h]
      · rw [if_neg hlt]
        simp only [DMap.find]
        by_cases hk : k' = e.1
        · rw [if_pos hk, if_pos hk]
        · rw [if_neg hk, if_neg hk]
          exact ih

theorem DMap.find_erase_ne (m : DMap) (k k' : DKey) (h : k' ≠ k) :
    DMap.find (DMap.erase k m) k' = DMap.find m k' := by
  induction m with
  | nil => rfl
  | cons e m ih =>
      simp only [DMap.erase]
      by_cases hk : k = e.1
      · rw [if_pos hk]
        simp only [DMap.find, if_neg (hk ▸ h)]
      · rw [if_neg hk]
        simp only [DMap.find]
        by_cases hk' : k' = e.1
        · rw [if_pos hk', if_pos hk']
        · rw [if_neg hk', if_neg hk']
          exact ih

theorem DMap.erase_insert_self (m : DMap) (k : DKey) (v : DVal)
    (h : k ∉ DMap.keys m) : DMap.erase k (DMap.insert k v m) = m := by
  induction m with
  | nil => simp [DMap.insert, DMap.erase]
  | cons e m ih =>
      simp only [DMap.keys, List.map_cons, List.mem_cons] at h
      push_neg at h
      simp only [DMap.insert]
      by_cases hlt : DKey.lt k e.1 = true
      · rw [if_pos hlt]
        simp [DMap.erase]
      · rw [if_neg hlt]
        simp only [DMap.erase, if_neg h.1]
        rw [ih (by simpa [DMap.keys] using h.2)]

theorem DMap.find_cons_pos (e : DKey × DVal) (m : DMap) {k : DKey} (h : k = e.1) :
    DMap.find (e :: m) k = some e.2 := by
  rw [DMap.find, if_pos h]

theorem DMap.find_cons_neg (e : DKey × DVal) (m : DMap) {k : DKey} (h : ¬k = e.1) :
    DMap.find (e :: m) k = DMap.find m k := by
  rw [DMap.find, if_neg h]

theorem DMap.erase_cons_pos (e : DKey × DVal) (m : DMap) {k : DKey} (h : k = e.1) :
    DMap.erase k (e :: m) = m := by
  rw [DMap.erase, if_pos h]

theorem DMap.erase_cons_neg (e : DKey × DVal) (m : DMap) {k : DKey} (h : ¬k = e.1) :
    DMap.erase k (e :: m) = e :: DMap.erase k m := by
  rw [DMap.erase, if_neg h]

theorem DMap.erase_erase_comm (m : DMap) (k1 k2 : DKey) (h : k1 ≠ k2) :
    DMap.erase k1 (DMap.erase k2 m) = DMap.erase k2 (DMap.erase k1 m) := by
  induction m with
  | nil => rfl
  | cons e m ih =>
      by_cases h2 : k2 = e.1
      · have h1e : ¬k1 = e.1 := fun hx => h (hx.trans h2.symm)
        rw [DMap.erase_cons_pos e m h2, DMap.erase_cons_neg e m h1e,
          DMap.erase_cons_pos e (DMap.erase k1 m) h2]
      · by_cases h1 : k1 = e.1
        · rw [DMap.erase_cons_neg e m h2, DMap.erase_cons_pos e m h1,
            DMap.erase_cons_pos e (DMap.erase k2 m) h1]
        · rw [DMap.erase_cons_neg e m h2, DMap.erase_cons_neg e m h1,
            DMap.erase_cons_neg e (DMap.erase k2 m) h1,
            DMap.erase_cons_neg e (DMap.erase k1 m) h2, ih]

/-- Sorted insertion places the entry somewhere in the list. -/
theorem DMap.insert_perm_cons (m : DMap) (k : DKey) (v : DVal) :
    (DMap.insert k v m).Perm ((k, v) :: m) := by
  induction m with
  | nil => exact List.Perm.refl _
  | cons e m ih =>
      simp only [DMap.insert]
      by_cases hlt : DKey.lt k e.1 = true
      · rw [if_pos hlt]
      · rw [if_neg hlt]
        exact (ih.cons e).trans (List.Perm.swap (k, v) e m)

/-- Erasure yields a sublist. -/
theorem DMap.erase_sublist (m : DMap) (k : DKey) : (DMap.erase k m).Sublist m := by
  induction m with
  | nil => exact List.Sublist.refl _
  | cons e m ih =>
      by_cases hk : k = e.1
      · rw [DMap.erase, if_pos hk]
        exact (List.sublist_cons_self e m)
      · rw [DMap.erase, if_neg hk]
        exact ih.cons₂ e

/-- On maps with no duplicate keys, lookup respects permutation. -/
theorem DMap.find_congr {m1 m2 : DMap} (h : m1.Perm m2) :
    ∀ k, (DMap.keys m1).Nodup → DMap.find m1 k = DMap.find m2 k := by
  induction h with
  | nil => intro k _; rfl
  | cons x h ih =>
      intro k hn
      simp only [DMap.find]
      by_cases hk : k = x.1
      · rw [if_pos hk, if_pos hk]
      · rw [if_neg hk, if_neg hk]
        exact ih k (by simpa [DMap.keys] using hn.of_cons)
  | swap x y l =>
      intro k hn
      have hxy : y.1 ≠ x.1 := by
        simp only [DMap.keys, List.map_cons, List.nodup_cons, List.mem_cons] at hn
        exact fun hx => hn.1 (Or.inl hx)
      by_cases hky : k = y.1
      · rw [DMap.find_cons_pos y (x :: l) hky,
          DMap.find_cons_neg x (y :: l) (fun hx => hxy (hky ▸ hx)),
          DMap.find_cons_pos y l hky]
      · by_cases hkx : k = x.1
        · rw [DMap.find_cons_neg y (x :: l) hky, DMap.find_cons_pos x l hkx,
            DMap.find_cons_pos x (y :: l) hkx]
        · rw [DMap.find_cons_neg y (x :: l) hky, DMap.find_cons_neg x l hkx,
            DMap.find_cons_neg x (y :: l) hkx, DMap.find_cons_neg y l hky]
  | trans h1 h2 ih1 ih2 =>
      intro k hn
      refine (ih1 k hn).trans (ih2 k ?_)
      exact (h1.map Prod.fst).nodup hn

/-- On maps with no duplicate keys, erasure respects permutation. -/
theorem DMap.erase_perm {m1 m2 : DMap} (h : m1.Perm m2) :
    ∀ k, (DMap.keys m1).Nodup → (DMap.erase k m1).Perm (DMap.erase k m2) := by
  induction h with
  | nil => intro k _; exact List.Perm.refl _
  | cons x h ih =>
      intro k hn
      simp only [DMap.erase]
      by_cases hk : k = x.1
      · rw [if_pos hk, if_pos hk]
        exact h
      · rw [if_neg hk, if_neg hk]
        exact (ih k (by simpa [DMap.keys] using hn.of_cons)).cons x
  | swap x y l =>
      intro k hn
      have hxy : y.1 ≠ x.1 := by
        simp only [DMap.keys, List.map_cons, List.nodup_cons, List.mem_cons] at hn
        exact fun hx => hn.1 (Or.inl hx)
      simp only [DMap.erase]
      by_cases hky : k = y.1
      · rw [if_pos hky, if_neg (fun hx => hxy (hky ▸ hx)), if_pos hky]
      · by_cases hkx : k = x.1
        · rw [if_neg hky, if_pos hkx, if_pos hkx]
        · rw [if_neg hky, if_neg hkx, if_neg hkx, if_neg hky]
          exact List.Perm.swap x y _
  | trans h1 h2 ih1 ih2 =>
      intro k hn
      exact (ih1 k hn).trans (ih2 k ((h1.map Prod.fst).nodup hn))

theorem DMap.keys_insert_perm (m : DMap) (k : DKey) (v : DVal) :
    (DMap.keys (DMap.insert k v m)).Perm (k :: DMap.keys m) :=
  (DMap.insert_perm_cons m k v).map Prod.fst

theorem DMap.keys_erase_sublist (m : DMap) (k : DKey) :
    (DMap.keys (DMap.erase k m)).Sublist (DMap.keys m) :=
  (DMap.erase_sublist m k).map Prod.fst

theorem diffStepMap_none {r : HashRecord} {m : DMap} (w : Which)
    (hf : DMap.find m r.dkey = none) :
    diffStepMap w r m = DMap.insert r.dkey ⟨r.size, r.hash, w⟩ m := by
  unfold diffStepMap diffStep
  simp [hf]

theorem diffStepMap_some {r : HashRecord} {m : DMap} {v : DVal} (w : Which)
    (hf : DMap.find m r.dkey = some v) :
    diffStepMap w r m = DMap.erase r.dkey m := by
  unfold diffStepMap diffStep
  simp [hf]

theorem diffStepEmit_none {r : HashRecord} {m : DMap} (w : Which)
    (hf : DMap.find m r.dkey = none) :
    diffStepEmit w r m = [] := by
  unfold diffStepEmit diffStep
  simp [hf]

theorem diffStepEmit_some {r : HashRecord} {m : DMap} {v : DVal} (w : Which)
    (hf : DMap.find m r.dkey = some v) :
    diffStepEmit w r m = if r.hash = v.hash then [] else [mkDiff r w v] := by
  unfold diffStepEmit diffStep
  by_cases hh : r.hash = v.hash <;> simp [hf, hh]

/-- `diffStep` factors into its map action and its emissions. -/
theorem diffStep_factor (w : Which) (r : HashRecord) (m : DMap) (d : List Difference) :
    diffStep w r (m, d) = (diffStepMap w r m, d ++ diffStepEmit w r m) := by
  cases hf : DMap.find m r.dkey with
  | none =>
      rw [diffStepMap_none w hf, diffStepEmit_none w hf]
      unfold diffStep
      simp [hf]
  | some v =>
      rw [diffStepMap_some w hf, diffStepEmit_some w hf]
      unfold diffStep
      by_cases hh : r.hash = v.hash <;> simp [hf, hh]

/-- The lockstep walk factors into its final map and its emissions. -/
theorem diffLoop_factor (w1 w2 : Which) :
    ∀ (xs ys : List HashRecord) (m : DMap) (d : List Difference),
      diffLoop w1 w2 xs ys (m, d) =
        ((diffLoop w1 w2 xs ys (m, [])).1,
          d ++ (diffLoop w1 w2 xs ys (m, [])).2) := by
  intro xs
  induction xs with
  | nil =>
      intro ys
      induction ys with
      | nil => intro m d; simp [diffLoop]
      | cons b bs ihb =>
          intro m d
          simp only [diffLoop]
          rw [diffStep_factor w2 b m d, diffStep_factor w2 b m [],
            ihb (diffStepMap w2 b m) (d ++ diffStepEmit w2 b m),
            ihb (diffStepMap w2 b m) ([] ++ diffStepEmit w2 b m)]
          simp [List.append_assoc]
  | cons a as iha =>
      intro ys
      cases ys with
      | nil =>
          intro m d
          simp only [diffLoop]
          rw [diffStep_factor w1 a m d, diffStep_factor w1 a m [],
            iha [] (diffStepMap w1 a m) (d ++ diffStepEmit w1 a m),
            iha [] (diffStepMap w1 a m) ([] ++ diffStepEmit w1 a m)]
          simp [List.append_assoc]
      | cons b bs =>
          intro m d
          simp only [diffLoop]
          rw [diffStep_factor w1 a m d, diffStep_factor w1 a m [],
            diffStep_factor w2 b (diffStepMap w1 a m) (d ++ diffStepEmit w1 a m),
            diffStep_factor w2 b (diffStepMap w1 a m) ([] ++ diffStepEmit w1 a m),
            iha bs (diffStepMap w2 b (diffStepMap w1 a m))
              ((d ++ diffStepEmit w1 a m) ++ diffStepEmit w2 b (diffStepMap w1 a m)),
            iha bs (diffStepMap w2 b (diffStepMap w1 a m))
              (([] ++ diffStepEmit w1 a m) ++ diffStepEmit w2 b (diffStepMap w1 a m))]
          simp [List.append_assoc]

theorem DMap.find_eq_none_iff (m : DMap) (k : DKey) :
    DMap.find m k = none ↔ k ∉ DMap.keys m := by
  induction m with
  | nil => simp [DMap.find, DMap.keys]
  | cons e m ih =>
      simp only [DMap.find, DMap.keys, List.map_cons, List.mem_cons]
      by_cases hk : k = e.1
      · simp [hk]
      · simp [hk, ih, DMap.keys]

theorem diffLoopMap_nil_nil (w1 w2 : Which) (m : DMap) :
    diffLoopMap w1 w2 [] [] m = m ∧ diffLoopEmit w1 w2 [] [] m = [] := by
  unfold diffLoopMap diffLoopEmit
  simp [diffLoop]

theorem diffLoopMap_nil_cons (w1 w2 : Which) (b : HashRecord) (bs : List HashRecord)
    (m : DMap) :
    diffLoopMap w1 w2 [] (b :: bs) m = diffLoopMap w1 w2 [] bs (diffStepMap w2 b m) ∧
    diffLoopEmit w1 w2 [] (b :: bs) m =
      diffStepEmit w2 b m ++ diffLoopEmit w1 w2 [] bs (diffStepMap w2 b m) := by
  unfold diffLoopMap diffLoopEmit
  simp only [diffLoop]
  rw [diffStep_factor w2 b m [], diffLoop_factor w1 w2 [] bs (diffStepMap w2 b m)
    ([] ++ diffStepEmit w2 b m)]
  simp

theorem diffLoopMap_cons_nil (w1 w2 : Which) (a : HashRecord) (as : List HashRecord)
    (m : DMap) :
    diffLoopMap w1 w2 (a :: as) [] m = diffLoopMap w1 w2 as [] (diffStepMap w1 a m) ∧
    diffLoopEmit w1 w2 (a :: as) [] m =
      diffStepEmit w1 a m ++ diffLoopEmit w1 w2 as [] (diffStepMap w1 a m) := by
  unfold diffLoopMap diffLoopEmit
  simp only [diffLoop]
  rw [diffStep_factor w1 a m [], diffLoop_factor w1 w2 as [] (diffStepMap w1 a m)
    ([] ++ diffStepEmit w1 a m)]
  simp

theorem diffLoopMap_cons_cons (w1 w2 : Which) (a b : HashRecord)
    (as bs : List HashRecord) (m : DMap) :
    diffLoopMap w1 w2 (a :: as) (b :: bs) m =
      diffLoopMap w1 w2 as bs (diffStepMap w2 b (diffStepMap w1 a m)) ∧
    diffLoopEmit w1 w2 (a :: as) (b :: bs) m =
      diffStepEmit w1 a m ++ diffStepEmit w2 b (diffStepMap w1 a m) ++
        diffLoopEmit w1 w2 as bs (diffStepMap w2 b (diffStepMap w1 a m)) := by
  unfold diffLoopMap diffLoopEmit
  simp only [diffLoop]
  rw [diffStep_factor w1 a m [],
    diffStep_factor w2 b (diffStepMap w1 a m) ([] ++ diffStepEmit w1 a m),
    diffLoop_factor w1 w2 as bs (diffStepMap w2 b (diffStepMap w1 a m))
      (([] ++ diffStepEmit w1 a m) ++ diffStepEmit w2 b (diffStepMap w1 a m))]
  simp [List.append_assoc]

/-- The emissions of one `diff` application depend on the map only
through the looked-up value. -/
theorem diffStepEmit_congr {m1 m2 : DMap} (w : Which) (r : HashRecord)
    (h : DMap.find m1 r.dkey = DMap.find m2 r.dkey) :
    diffStepEmit w r m1 = diffStepEmit w r m2 := by
  cases hf : DMap.find m1 r.dkey with
  | none => rw [diffStepEmit_none w hf, diffStepEmit_none w (h ▸ hf)]
  | some v => rw [diffStepEmit_some w hf, diffStepEmit_some w (h ▸ hf)]

/-- One `diff` application respects map permutation (no duplicate
keys). -/
theorem diffStepMap_perm {m1 m2 : DMap} (w : Which) (r : HashRecord)
    (h : m1.Perm m2) (hn : (DMap.keys m1).Nodup) :
    (diffStepMap w r m1).Perm (diffStepMap w r m2) := by
  have hfind := DMap.find_congr h r.dkey hn
  cases hf : DMap.find m1 r.dkey with
  | none =>
      rw [diffStepMap_none w hf, diffStepMap_none w (hfind ▸ hf)]
      exact ((DMap.insert_perm_cons m1 r.dkey _).trans (h.cons _)).trans
        (DMap.insert_perm_cons m2 r.dkey _).symm
  | some v =>
      rw [diffStepMap_some w hf, diffStepMap_some w (hfind ▸ hf)]
      exact DMap.erase_perm h r.dkey hn

theorem diffStepMap_keys_nodup {m : DMap} (w : Which) (r : HashRecord)
    (hn : (DMap.keys m).Nodup) : (DMap.keys (diffStepMap w r m)).Nodup := by
  cases hf : DMap.find m r.dkey with
  | none =>
      rw [diffStepMap_none w hf]
      have hmem : r.dkey ∉ DMap.keys m := (DMap.find_eq_none_iff m r.dkey).mp hf
      exact (DMap.keys_insert_perm m r.dkey _).symm.nodup (by simp [hmem, hn])
  | some v =>
      rw [diffStepMap_some w hf]
      exact (DMap.keys_erase_sublist m r.dkey).nodup hn

theorem diffStepMap_keys_subset {m : DMap} (w : Which) (r : HashRecord) (k : DKey)
    (hk : k ∈ DMap.keys (diffStepMap w r m)) : k = r.dkey ∨ k ∈ DMap.keys m := by
  cases hf : DMap.find m r.dkey with
  | none =>
      rw [diffStepMap_none w hf] at hk
      have := (DMap.keys_insert_perm m r.dkey _).mem_iff.mp hk
      simpa using this
  | some v =>
      rw [diffStepMap_some w hf] at hk
      exact Or.inr ((DMap.keys_erase_sublist m r.dkey).subset hk)

theorem diffStepMap_find_ne {m : DMap} (w : Which) (r : HashRecord) (k : DKey)
    (hk : k ≠ r.dkey) : DMap.find (diffStepMap w r m) k = DMap.find m k := by
  cases hf : DMap.find m r.dkey with
  | none =>
      rw [diffStepMap_none w hf]
      exact DMap.find_insert_ne m r.dkey k _ hk
  | some v =>
      rw [diffStepMap_some w hf]
      exact DMap.find_erase_ne m r.dkey k hk

theorem Which.flip_A : Which.flip .A = .B := rfl

theorem Which.flip_B : Which.flip .B = .A := rfl

theorem DMap.find_flip (m : DMap) (k : DKey) :
    DMap.find (DMap.flip m) k = (DMap.find m k).map DVal.flip := by
  induction m with
  | nil => rfl
  | cons e m ih =>
      by_cases hk : k = e.1
      · rw [show DMap.flip (e :: m) = (e.1, e.2.flip) :: DMap.flip m from rfl,
          DMap.find_cons_pos (e.1, e.2.flip) (DMap.flip m) hk,
          DMap.find_cons_pos e m hk]
        rfl
      · rw [show DMap.flip (e :: m) = (e.1, e.2.flip) :: DMap.flip m from rfl,
          DMap.find_cons_neg (e.1, e.2.flip) (DMap.flip m) hk,
          DMap.find_cons_neg e m hk, ih]

theorem DMap.insert_flip (m : DMap) (k : DKey) (v : DVal) :
    DMap.flip (DMap.insert k v m) = DMap.insert k v.flip (DMap.flip m) := by
  induction m with
  | nil => rfl
  | cons e m ih =>
      by_cases hlt : DKey.lt k e.1 = true
      · rw [show DMap.insert k v (e :: m) = (k, v) :: e :: m from by
          rw [DMap.insert, if_pos hlt]]
        rw [show DMap.flip (e :: m) = (e.1, e.2.flip) :: DMap.flip m from rfl,
          show DMap.insert k v.flip ((e.1, e.2.flip) :: DMap.flip m) =
            (k, v.flip) :: (e.1, e.2.flip) :: DMap.flip m from by
          rw [DMap.insert, if_pos hlt]]
        rfl
      · rw [show DMap.insert k v (e :: m) = e :: DMap.insert k v m from by
          rw [DMap.insert, if_neg hlt]]
        rw [show DMap.flip (e :: m) = (e.1, e.2.flip) :: DMap.flip m from rfl,
          show DMap.insert k v.flip ((e.1, e.2.flip) :: DMap.flip m) =
            (e.1, e.2.flip) :: DMap.insert k v.flip (DMap.flip m) from by
          rw [DMap.insert, if_neg hlt]]
        rw [show DMap.flip (e :: DMap.insert k v m) =
          (e.1, e.2.flip) :: DMap.flip (DMap.insert k v m) from rfl, ih]

theorem DMap.erase_flip (m : DMap) (k : DKey) :
    DMap.flip (DMap.erase k m) = DMap.erase k (DMap.flip m) := by
  induction m with
  | nil => rfl
  | cons e m ih =>
      by_cases hk : k = e.1
      · rw [DMap.erase_cons_pos e m hk,
          show DMap.flip (e :: m) = (e.1, e.2.flip) :: DMap.flip m from rfl,
          DMap.erase_cons_pos (e.1, e.2.flip) (DMap.flip m) hk]
      · rw [DMap.erase_cons_neg e m hk,
          show DMap.flip (e :: m) = (e.1, e.2.flip) :: DMap.flip m from rfl,
          DMap.erase_cons_neg (e.1, e.2.flip) (DMap.flip m) hk,
          show DMap.flip (e :: DMap.erase k m) =
            (e.1, e.2.flip) :: DMap.flip (DMap.erase k m) from rfl, ih]

theorem mkDiff_flip (r : HashRecord) (w : Which) (v : DVal) :
    mkDiff r w.flip v.flip = (mkDiff r w v).swap := by
  cases w <;> rfl

theorem leftoverDiff_flip (e : DKey × DVal) :
    leftoverDiff (e.1, e.2.flip) = (leftoverDiff e).swap := by
  obtain ⟨k, v⟩ := e
  cases hv : v.which <;>
    simp [leftoverDiff, DVal.flip, Difference.swap, Which.flip, hv]

theorem diffStepMap_flip (w : Which) (r : HashRecord) (m : DMap) :
    diffStepMap w.flip r (DMap.flip m) = DMap.flip (diffStepMap w r m) := by
  cases hf : DMap.find m r.dkey with
  | none =>
      have hf2 : DMap.find (DMap.flip m) r.dkey = none := by
        rw [DMap.find_flip, hf]
        rfl
      rw [diffStepMap_none w.flip hf2, diffStepMap_none w hf, DMap.insert_flip]
      rfl
  | some v =>
      have hf2 : DMap.find (DMap.flip m) r.dkey = some v.flip := by
        rw [DMap.find_flip, hf]
        rfl
      rw [diffStepMap_some w.flip hf2, diffStepMap_some w hf, DMap.erase_flip]

theorem diffStepEmit_flip (w : Which) (r : HashRecord) (m : DMap) :
    diffStepEmit w.flip r (DMap.flip m) = (diffStepEmit w r m).map Difference.swap := by
  cases hf : DMap.find m r.dkey with
  | none =>
      have hf2 : DMap.find (DMap.flip m) r.dkey = none := by
        rw [DMap.find_flip, hf]
        rfl
      rw [diffStepEmit_none w.flip hf2, diffStepEmit_none w hf]
      rfl
  | some v =>
      have hf2 : DMap.find (DMap.flip m) r.dkey = some v.flip := by
        rw [DMap.find_flip, hf]
        rfl
      rw [diffStepEmit_some w.flip hf2, diffStepEmit_some w hf]
      by_cases hh : r.hash = v.hash
      · rw [if_pos hh, if_pos (show r.hash = v.flip.hash from hh)]
        rfl
      · rw [if_neg hh, if_neg (show ¬r.hash = v.flip.hash from hh), mkDiff_flip]
        rfl

/-- The lockstep walk with both tags flipped, run on the flipped map,
computes the flipped map and the swapped emissions. -/
theorem diffLoop_flip (w1 w2 : Which) :
    ∀ (xs ys : List HashRecord) (m : DMap),
      diffLoopMap w1.flip w2.flip xs ys (DMap.flip m) =
        DMap.flip (diffLoopMap w1 w2 xs ys m) ∧
      diffLoopEmit w1.flip w2.flip xs ys (DMap.flip m) =
        (diffLoopEmit w1 w2 xs ys m).map Difference.swap := by
  intro xs
  induction xs with
  | nil =>
      intro ys
      induction ys with
      | nil =>
          intro m
          rw [(diffLoopMap_nil_nil w1.flip w2.flip (DMap.flip m)).1,
            (diffLoopMap_nil_nil w1.flip w2.flip (DMap.flip m)).2,
            (diffLoopMap_nil_nil w1 w2 m).1, (diffLoopMap_nil_nil w1 w2 m).2]
          exact ⟨rfl, rfl⟩
      | cons b bs ihb =>
          intro m
          rw [(diffLoopMap_nil_cons w1.flip w2.flip b bs (DMap.flip m)).1,
            (diffLoopMap_nil_cons w1.flip w2.flip b bs (DMap.flip m)).2,
            (diffLoopMap_nil_cons w1 w2 b bs m).1,
            (diffLoopMap_nil_cons w1 w2 b bs m).2,
            diffStepMap_flip w2 b m, diffStepEmit_flip w2 b m,
            (ihb (diffStepMap w2 b m)).1, (ihb (diffStepMap w2 b m)).2]
          exact ⟨rfl, (List.map_append _ _ _).symm⟩
  | cons a as iha =>
      intro ys
      cases ys with
      | nil =>
          intro m
          rw [(diffLoopMap_cons_nil w1.flip w2.flip a as (DMap.flip m)).1,
            (diffLoopMap_cons_nil w1.flip w2.flip a as (DMap.flip m)).2,
            (diffLoopMap_cons_nil w1 w2 a as m).1,
            (diffLoopMap_cons_nil w1 w2 a as m).2,
            diffStepMap_flip w1 a m, diffStepEmit_flip w1 a m,
            (iha [] (diffStepMap w1 a m)).1, (iha [] (diffStepMap w1 a m)).2]
          exact ⟨rfl, (List.map_append _ _ _).symm⟩
      | cons b bs =>
          intro m
          rw [(diffLoopMap_cons_cons w1.flip w2.flip a b as bs (DMap.flip m)).1,
            (diffLoopMap_cons_cons w1.flip w2.flip a b as bs (DMap.flip m)).2,
            (diffLoopMap_cons_cons w1 w2 a b as bs m).1,
            (diffLoopMap_cons_cons w1 w2 a b as bs m).2,
            diffStepMap_flip w1 a m, diffStepEmit_flip w1 a m,
            diffStepMap_flip w2 b (diffStepMap w1 a m),
            diffStepEmit_flip w2 b (diffStepMap w1 a m),
            (iha bs (diffStepMap w2 b (diffStepMap w1 a m))).1,
            (iha bs (diffStepMap w2 b (diffStepMap w1 a m))).2]
          refine ⟨rfl, ?_⟩
          simp [List.map_append]

/-- Two `diff` applications at distinct keys commute (up to map
permutation). -/
theorem diffStepMap_comm {m : DMap} (w1 w2 : Which) (a b : HashRecord)
    (hk : a.dkey ≠ b.dkey) (hn : (DMap.keys m).Nodup) :
    (diffStepMap w2 b (diffStepMap w1 a m)).Perm
      (diffStepMap w1 a (diffStepMap w2 b m)) := by
  have hfb : DMap.find (diffStepMap w1 a m) b.dkey = DMap.find m b.dkey :=
    diffStepMap_find_ne w1 a b.dkey (fun hx => hk hx.symm)
  have hfa : DMap.find (diffStepMap w2 b m) a.dkey = DMap.find m a.dkey :=
    diffStepMap_find_ne w2 b a.dkey hk
  cases hfam : DMap.find m a.dkey with
  | none =>
      have hanot : a.dkey ∉ DMap.keys m := (DMap.find_eq_none_iff m a.dkey).mp hfam
      have hstepA : diffStepMap w1 a m = DMap.insert a.dkey ⟨a.size, a.hash, w1⟩ m :=
        diffStepMap_none w1 hfam
      cases hfbm : DMap.find m b.dkey with
      | none =>
          have hstepB : diffStepMap w2 b m = DMap.insert b.dkey ⟨b.size, b.hash, w2⟩ m :=
            diffStepMap_none w2 hfbm
          rw [diffStepMap_none w2 (hfb.trans hfbm),
            diffStepMap_none w1 (hfa.trans hfam), hstepA, hstepB]
          refine ((DMap.insert_perm_cons _ b.dkey _).trans ?_).trans
            (DMap.insert_perm_cons _ a.dkey _).symm
          refine (((DMap.insert_perm_cons m a.dkey _).cons _).trans
            (List.Perm.swap _ _ m)).trans ?_
          exact (DMap.insert_perm_cons m b.dkey _).symm.cons _
      | some vb =>
          have hstepB : diffStepMap w2 b m = DMap.erase b.dkey m :=
            diffStepMap_some w2 hfbm
          rw [diffStepMap_some w2 (hfb.trans hfbm),
            diffStepMap_none w1 (hfa.trans hfam), hstepA, hstepB]
          have h1 : (DMap.erase b.dkey (DMap.insert a.dkey ⟨a.size, a.hash, w1⟩ m)).Perm
              (DMap.erase b.dkey ((a.dkey, (⟨a.size, a.hash, w1⟩ : DVal)) :: m)) := by
            refine DMap.erase_perm (DMap.insert_perm_cons m a.dkey _) b.dkey ?_
            exact (DMap.keys_insert_perm m a.dkey _).symm.nodup (by simp [hanot, hn])
          rw [DMap.erase_cons_neg _ m (fun hx => hk hx.symm)] at h1
          exact h1.trans ((DMap.insert_perm_cons (DMap.erase b.dkey m) a.dkey _).symm)
  | some va =>
      have hstepA : diffStepMap w1 a m = DMap.erase a.dkey m :=
        diffStepMap_some w1 hfam
      cases hfbm : DMap.find m b.dkey with
      | none =>
          have hbnot : b.dkey ∉ DMap.keys m := (DMap.find_eq_none_iff m b.dkey).mp hfbm
          have hstepB : diffStepMap w2 b m = DMap.insert b.dkey ⟨b.size, b.hash, w2⟩ m :=
            diffStepMap_none w2 hfbm
          rw [diffStepMap_none w2 (hfb.trans hfbm),
            diffStepMap_some w1 (hfa.trans hfam), hstepA, hstepB]
          have h1 : (DMap.erase a.dkey (DMap.insert b.dkey ⟨b.size, b.hash, w2⟩ m)).Perm
              (DMap.erase a.dkey ((b.dkey, (⟨b.size, b.hash, w2⟩ : DVal)) :: m)) := by
            refine DMap.erase_perm (DMap.insert_perm_cons m b.dkey _) a.dkey ?_
            exact (DMap.keys_insert_perm m b.dkey _).symm.nodup (by simp [hbnot, hn])
          rw [DMap.erase_cons_neg _ m hk] at h1
          exact (h1.trans
            ((DMap.insert_perm_cons (DMap.erase a.dkey m) b.dkey _).symm)).symm
      | some vb =>
          have hstepB : diffStepMap w2 b m = DMap.erase b.dkey m :=
            diffStepMap_some w2 hfbm
          rw [diffStepMap_some w2 (hfb.trans hfbm),
            diffStepMap_some w1 (hfa.trans hfam), hstepA, hstepB,
            DMap.erase_erase_comm m b.dkey a.dkey (fun hx => hk hx.symm)]

/-- The lockstep walk is order-insensitive: exchanging which journal is
advanced first inside each iteration changes the final map only up to
permutation and the emitted differences only up to permutation, provided
each journal has unique keys, no key already in the map occurs in both
remaining journals, and records sharing a key agree on `size`. -/
theorem diffLoop_comm :
    ∀ (as bs : List HashRecord) (m1 m2 : DMap),
      m1.Perm m2 → (DMap.keys m1).Nodup →
      (as.map HashRecord.dkey).Nodup → (bs.map HashRecord.dkey).Nodup →
      (∀ k ∈ DMap.keys m1,
        ¬(k ∈ as.map HashRecord.dkey ∧ k ∈ bs.map HashRecord.dkey)) →
      (∀ a ∈ as, ∀ b ∈ bs, a.dkey = b.dkey → a.size = b.size) →
      (diffLoopMap .A .B as bs m1).Perm (diffLoopMap .B .A bs as m2) ∧
      (diffLoopEmit .A .B as bs m1).Perm (diffLoopEmit .B .A bs as m2) := by
  intro as
  induction as with
  | nil =>
      intro bs
      induction bs with
      | nil =>
          intro m1 m2 hp _ _ _ _ _
          rw [(diffLoopMap_nil_nil .A .B m1).1, (diffLoopMap_nil_nil .A .B m1).2,
            (diffLoopMap_nil_nil .B .A m2).1, (diffLoopMap_nil_nil .B .A m2).2]
          exact ⟨hp, List.Perm.refl _⟩
      | cons b bs ihb =>
          intro m1 m2 hp hn hna hnb hdisj _
          have hL := diffLoopMap_nil_cons .A .B b bs m1
          have hR := diffLoopMap_cons_nil .B .A b bs m2
          rw [hL.1, hL.2, hR.1, hR.2]
          have hfind := DMap.find_congr hp b.dkey hn
          have hnb' : (bs.map HashRecord.dkey).Nodup := by
            simp only [List.map_cons] at hnb
            exact hnb.of_cons
          have hrec := ihb (diffStepMap .B b m1) (diffStepMap .B b m2)
            (diffStepMap_perm .B b hp hn) (diffStepMap_keys_nodup .B b hn)
            hna hnb'
            (by
              intro k _ hk
              simp at hk)
            (by
              intro x hx
              exact absurd hx (List.not_mem_nil x))
          rw [diffStepEmit_congr .B b hfind]
          exact ⟨hrec.1, List.Perm.append_left _ hrec.2⟩
  | cons a as iha =>
      intro bs
      cases bs with
      | nil =>
          intro m1 m2 hp hn hna _ _ _
          have hL := diffLoopMap_cons_nil .A .B a as m1
          have hR := diffLoopMap_nil_cons .B .A a as m2
          rw [hL.1, hL.2, hR.1, hR.2]
          have hfind := DMap.find_congr hp a.dkey hn
          have hna' : (as.map HashRecord.dkey).Nodup := by
            simp only [List.map_cons] at hna
            exact hna.of_cons
          have hrec := iha [] (diffStepMap .A a m1) (diffStepMap .A a m2)
            (diffStepMap_perm .A a hp hn) (diffStepMap_keys_nodup .A a hn)
            hna' (by simp)
            (by
              intro k _ hk
              simp at hk)
            (by
              intro x _ y hy
              exact absurd hy (List.not_mem_nil y))
          rw [diffStepEmit_congr .A a hfind]
          exact ⟨hrec.1, List.Perm.append_left _ hrec.2⟩
      | cons b bs =>
          intro m1 m2 hp hn hna hnb hdisj hsz
          have hL := diffLoopMap_cons_cons .A .B a b as bs m1
          have hR := diffLoopMap_cons_cons .B .A b a bs as m2
          rw [hL.1, hL.2, hR.1, hR.2]
          have hna' : (as.map HashRecord.dkey).Nodup := by
            simp only [List.map_cons] at hna
            exact hna.of_cons
          have hnb' : (bs.map HashRecord.dkey).Nodup := by
            simp only [List.map_cons] at hnb
            exact hnb.of_cons
          have hanotin : a.dkey ∉ as.map HashRecord.dkey := by
            simp only [List.map_cons] at hna
            exact (List.nodup_cons.mp hna).1
          have hbnotin : b.dkey ∉ bs.map HashRecord.dkey := by
            simp only [List.map_cons] at hnb
            exact (List.nodup_cons.mp hnb).1
          have hn2 : (DMap.keys m2).Nodup := ((hp.map Prod.fst).nodup_iff).mp hn
          have hsz' : ∀ x ∈ as, ∀ y ∈ bs, x.dkey = y.dkey → x.size = y.size := by
            intro x hx y hy
            exact hsz x (by simp [hx]) y (by simp [hy])
          by_cases hkey : a.dkey = b.dkey
          · have hknotm : a.dkey ∉ DMap.keys m1 := by
              intro hk
              exact hdisj a.dkey hk ⟨by simp, by simp [hkey]⟩
            have hf1 : DMap.find m1 a.dkey = none := DMap.find_none hknotm
            have hf2 : DMap.find m2 b.dkey = none := by
              rw [← DMap.find_congr hp b.dkey hn, ← hkey]
              exact hf1
            have hmA : diffStepMap .A a m1 =
                DMap.insert a.dkey ⟨a.size, a.hash, .A⟩ m1 :=
              diffStepMap_none .A hf1
            have heA : diffStepEmit .A a m1 = [] := diffStepEmit_none .A hf1
            have hfB : DMap.find (diffStepMap .A a m1) b.dkey =
                some ⟨a.size, a.hash, .A⟩ := by
              rw [hmA, ← hkey]
              exact DMap.find_insert_self m1 a.dkey _ hknotm
            have hmB : diffStepMap .B b (diffStepMap .A a m1) = m1 := by
              rw [diffStepMap_some .B hfB, hmA, ← hkey]
              exact DMap.erase_insert_self m1 a.dkey _ hknotm
            have heB : diffStepEmit .B b (diffStepMap .A a m1) =
                if b.hash = a.hash then []
                else [mkDiff b .B ⟨a.size, a.hash, .A⟩] :=
              diffStepEmit_some .B hfB
            have hknotm2 : b.dkey ∉ DMap.keys m2 :=
              (DMap.find_eq_none_iff m2 b.dkey).mp hf2
            have hmB2 : diffStepMap .B b m2 =
                DMap.insert b.dkey ⟨b.size, b.hash, .B⟩ m2 :=
              diffStepMap_none .B hf2
            have heB2 : diffStepEmit .B b m2 = [] := diffStepEmit_none .B hf2
            have hfA2 : DMap.find (diffStepMap .B b m2) a.dkey =
                some ⟨b.size, b.hash, .B⟩ := by
              rw [hmB2, hkey]
              exact DMap.find_insert_self m2 b.dkey _ hknotm2
            have hmA2 : diffStepMap .A a (diffStepMap .B b m2) = m2 := by
              rw [diffStepMap_some .A hfA2, hmB2, hkey]
              exact DMap.erase_insert_self m2 b.dkey _ hknotm2
            have heA2 : diffStepEmit .A a (diffStepMap .B b m2) =
                if a.hash = b.hash then []
                else [mkDiff a .A ⟨b.size, b.hash, .B⟩] :=
              diffStepEmit_some .A hfA2
            rw [hmB, hmA2, heA, heB, heB2, heA2]
            have hdisj' : ∀ k ∈ DMap.keys m1,
                ¬(k ∈ as.map HashRecord.dkey ∧ k ∈ bs.map HashRecord.dkey) := by
              intro k hk hcon
              exact hdisj k hk ⟨by simp [hcon.1], by simp [hcon.2]⟩
            have hrec := iha bs m1 m2 hp hn hna' hnb' hdisj' hsz'
            refine ⟨hrec.1, ?_⟩
            have hpair : (if b.hash = a.hash then ([] : List Difference)
                else [mkDiff b .B ⟨a.size, a.hash, .A⟩]) =
                (if a.hash = b.hash then ([] : List Difference)
                else [mkDiff a .A ⟨b.size, b.hash, .B⟩]) := by
              have hfid : a.fileId = b.fileId := congrArg DKey.file hkey
              have hoff : a.offset = b.offset := congrArg DKey.offset hkey
              have hszab : a.size = b.size := hsz a (by simp) b (by simp) hkey
              by_cases hh : a.hash = b.hash
              · rw [if_pos hh.symm, if_pos hh]
              · rw [if_neg (fun hx => hh hx.symm), if_neg hh]
                simp [mkDiff, hfid, hoff, hszab]
            rw [hpair]
            simp only [List.nil_append]
            exact List.Perm.append_left _ hrec.2
          · have hfb_stable : DMap.find (diffStepMap .A a m1) b.dkey =
                DMap.find m1 b.dkey :=
              diffStepMap_find_ne .A a b.dkey (fun hx => hkey hx.symm)
            have hfa_stable : DMap.find (diffStepMap .B b m2) a.dkey =
                DMap.find m2 a.dkey :=
              diffStepMap_find_ne .B b a.dkey hkey
            have hfinda := DMap.find_congr hp a.dkey hn
            have hfindb := DMap.find_congr hp b.dkey hn
            have heB : diffStepEmit .B b (diffStepMap .A a m1) =
                diffStepEmit .B b m2 :=
              diffStepEmit_congr .B b (hfb_stable.trans hfindb)
            have heA2 : diffStepEmit .A a (diffStepMap .B b m2) =
                diffStepEmit .A a m1 :=
              diffStepEmit_congr .A a (hfa_stable.trans hfinda.symm)
            have hmperm : (diffStepMap .B b (diffStepMap .A a m1)).Perm
                (diffStepMap .A a (diffStepMap .B b m2)) := by
              refine (diffStepMap_perm .B b (diffStepMap_perm .A a hp hn)
                (diffStepMap_keys_nodup .A a hn)).trans ?_
              exact diffStepMap_comm .A .B a b hkey hn2
            have hmn : (DMap.keys
                (diffStepMap .B b (diffStepMap .A a m1))).Nodup :=
              diffStepMap_keys_nodup .B b (diffStepMap_keys_nodup .A a hn)
            have hdisj' : ∀ k ∈ DMap.keys (diffStepMap .B b (diffStepMap .A a m1)),
                ¬(k ∈ as.map HashRecord.dkey ∧ k ∈ bs.map HashRecord.dkey) := by
              intro k hk hcon
              rcases diffStepMap_keys_subset .B b k hk with hkb | hk'
              · exact hbnotin (hkb ▸ hcon.2)
              · rcases diffStepMap_keys_subset .A a k hk' with hka | hkm
                · exact hanotin (hka ▸ hcon.1)
                · exact hdisj k hkm ⟨by simp [hcon.1], by simp [hcon.2]⟩
            have hrec := iha bs (diffStepMap .B b (diffStepMap .A a m1))
              (diffStepMap .A a (diffStepMap .B b m2)) hmperm hmn hna' hnb'
              hdisj' hsz'
            refine ⟨hrec.1, ?_⟩
            rw [heB, heA2]
            exact (List.perm_append_comm).append hrec.2

theorem leftoverDiff_map_flip (M : DMap) :
    (DMap.flip M).map leftoverDiff =
      (M.map leftoverDiff).map Difference.swap := by
  unfold DMap.flip
  rw [List.map_map, List.map_map]
  refine List.map_congr_left ?_
  intro e _
  simp only [Function.comp_apply]
  exact leftoverDiff_flip e

/-- C5, counterexample: journal A holding the single record
`(hash 1, offset 0, size 1, fileId 0)` against journal B holding
`(hash 2, offset 0, size 2, fileId 0)`, which share the key `(0, 0)` but
have different sizes. The emitted difference takes its `size` from the
record processed at the moment of the map hit, i.e. the record of
whichever journal is visited second at that key: `diffJournals(A,B)`
emits `size = 2` (from B's record) while `diffJournals(B,A)` emits
`size = 1` (from A's record), so the two results are not
hashA/hashB-swapped copies of each other. -/
theorem diffJournals_size_asymmetry :
    ¬ (diffJournals [⟨2, 0, 2, 0⟩] [⟨1, 0, 1, 0⟩]).Perm
        ((diffJournals [⟨1, 0, 1, 0⟩] [⟨2, 0, 2, 0⟩]).map Difference.swap) := by
  have h1 : diffJournals [⟨2, 0, 2, 0⟩] [⟨1, 0, 1, 0⟩] =
      [⟨0, 1, 2, 1, 0⟩] := by
    simp [diffJournals, diffLoop, diffStep, DMap.find, DMap.insert, DMap.erase,
      mkDiff, HashRecord.dkey, DKey.lt, leftoverDiff]
  have h2 : diffJournals [⟨1, 0, 1, 0⟩] [⟨2, 0, 2, 0⟩] =
      [⟨0, 2, 1, 2, 0⟩] := by
    simp [diffJournals, diffLoop, diffStep, DMap.find, DMap.insert, DMap.erase,
      mkDiff, HashRecord.dkey, DKey.lt, leftoverDiff]
  rw [h1, h2]
  intro hperm
  have heq := List.singleton_perm.mp hperm
  simp [Difference.swap] at heq

/-- C5 (amended): when each journal's records have distinct
`(fileId, offset)` keys and records sharing a key agree on `size`,
`diffJournals(B, A)` is a permutation of `diffJournals(A, B)` with the
`hashA`/`hashB` fields of every difference swapped. -/
theorem diffJournals_symmetric (ra rb : List HashRecord)
    (hna : (ra.map HashRecord.dkey).Nodup)
    (hnb : (rb.map HashRecord.dkey).Nodup)
    (hsz : ∀ a ∈ ra, ∀ b ∈ rb, a.dkey = b.dkey → a.size = b.size) :
    (diffJournals rb ra).Perm ((diffJournals ra rb).map Difference.swap) := by
  have hcomm := diffLoop_comm ra rb [] [] (List.Perm.refl _)
    List.nodup_nil hna hnb
    (by
      intro k hk
      simp [DMap.keys] at hk)
    hsz
  have hflipM : diffLoopMap .A .B rb ra [] =
      DMap.flip (diffLoopMap .B .A rb ra []) :=
    (diffLoop_flip .B .A rb ra []).1
  have hflipE : diffLoopEmit .A .B rb ra [] =
      (diffLoopEmit .B .A rb ra []).map Difference.swap :=
    (diffLoop_flip .B .A rb ra []).2
  have hdj : ∀ xs ys, diffJournals xs ys =
      diffLoopEmit .A .B xs ys [] ++
        (diffLoopMap .A .B xs ys []).map leftoverDiff :=
    fun _ _ => rfl
  rw [hdj, hdj, hflipE, hflipM, List.map_append, leftoverDiff_map_flip]
  exact (hcomm.2.symm.map Difference.swap).append
    ((hcomm.1.symm.map leftoverDiff).map Difference.swap)

/-- C5, witness: two one-record journals sharing key `(0, 0)` and size 4
but with hashes 1 and 2; the diff in either order is the other's
hash-swap. -/
theorem diffJournals_symmetric_witness :
    (diffJournals [⟨2, 0, 4, 0⟩] [⟨1, 0, 4, 0⟩]).Perm
      ((diffJournals [⟨1, 0, 4, 0⟩] [⟨2, 0, 4, 0⟩]).map Difference.swap) :=
  diffJournals_symmetric [⟨1, 0, 4, 0⟩] [⟨2, 0, 4, 0⟩] (by decide) (by decide)
    (by decide)

/-- C10, witness: creating at path `"j"` over a filesystem already
holding a file `"j"` with contents `[1]`. -/
theorem journal_create_exclusive_witness :
    (List.lookup "j" [("j", [1])]).isSome = true ∧
    Journal.create (fun _ : List Unit => []) [("j", [1])] "j" [] =
      (Except.error (), [("j", [1])]) := by
  have h : (List.lookup "j" [("j", [(1 : Nat)])]).isSome = true := by rfl
  exact ⟨h, journal_create_exclusive (fun _ : List Unit => []) [("j", [1])] "j" [] h⟩

end Draft
